import Mathlib

/-!
Verification of the Robust Mean-Shift (RMS / RLSF) color-image filter:
a shallow embedding of `filter_ms_rlsf.c` (functions `compute_weight_ms_rlsf`,
`denoise_pixel_rlsf`, `filter_ms_rlsf`) together with the image-library
helpers it consumes (`is_rgb_img`, the `IS_POS` macro).

Machine floats are idealized as exact reals; packed 24-bit colors are
naturals with the source's bit operations.  The `+INFINITY` sentinel used by
the partial-selection loop is modelled by `⊤` in `WithTop ℝ`.
-/

namespace RMS

noncomputable section

/-- The `DBL_EPSILON` constant from `<float.h>` used by the `IS_POS` macro. -/
def DBL_EPSILON : ℝ := 2 ^ (-52 : ℤ)

/-- The macro `IS_POS( x ) ( ( x ) > DBL_EPSILON )` from `image.h`. -/
def IS_POS (x : ℝ) : Prop := x > DBL_EPSILON

instance : DecidablePred IS_POS := fun x => Real.decidableLT DBL_EPSILON x

/-- Pixel kinds of the `Image` tagged union (only the ones the filter
distinguishes are listed). -/
inductive PixelType where
  | PIX_BIN
  | PIX_GRAY
  | PIX_RGB
  | PIX_INT
  | PIX_DBL
deriving DecidableEq

/-- The image object: pixel kind, dimensions, and the per-pixel byte
triple `in_data[i][j][0..2]` (row, column indexed). -/
structure Image where
  pix_type : PixelType
  num_rows : ℕ
  num_cols : ℕ
  data : ℕ → ℕ → ℕ × ℕ × ℕ

/-- `is_rgb_img` from the image library: a non-null image whose tag is
`PIX_RGB` (null pointers do not exist in the embedding). -/
def is_rgb_img (img : Image) : Prop := img.pix_type = PixelType.PIX_RGB

instance (img : Image) : Decidable (is_rgb_img img) := by
  unfold is_rgb_img; infer_instance

/-- Red channel of a packed color: `(p & 0XFF0000) >> 16`. -/
def redOf (p : ℕ) : ℕ := (p &&& 0xFF0000) >>> 16

/-- Green channel of a packed color: `(p & 0XFF00) >> 8`. -/
def greenOf (p : ℕ) : ℕ := (p &&& 0xFF00) >>> 8

/-- Blue channel of a packed color: `p & 0XFF`. -/
def blueOf (p : ℕ) : ℕ := p &&& 0xFF

/-- Packing of three channel bytes: `(r << 16) | (g << 8) | b`. -/
def packRGB (r g b : ℕ) : ℕ := (r <<< 16) ||| ((g <<< 8) ||| b)

/-- The C cast `(int)x` on a real value: truncation toward zero. -/
def truncToInt (x : ℝ) : ℤ := if 0 ≤ x then ⌊x⌋ else -⌊-x⌋

/-- The C `round` function (half away from zero), composed with the
`(int)` cast as the source does: `(int)round(x)`. -/
def cround (x : ℝ) : ℤ := if 0 ≤ x then ⌊x + 1 / 2⌋ else -⌊-x + 1 / 2⌋

/-! ### Weight Evaluator (`compute_weight_ms_rlsf`)

The nine squared color distances filled by the double loop
`for i = -f..f, j = -f..f` (`f = 1`, row-major, so patch slot `a`
has offsets `i = a / 3 - 1`, `j = a % 3 - 1`; the center is `a = 4`).
The patch is read around the flat index `pos`; the center slot uses
`central_pix` instead of the buffer. -/

/-- The nine entries of the local `weights[9]` array right after the fill
loop of `compute_weight_ms_rlsf`: squared Euclidean color distances from
the argument color `(r, g, b)` to the 3×3 patch around `pos` (center slot
replaced by `central_pix`). -/
def nbhdDists (in_data : ℤ → ℕ) (width : ℤ) (r g b : ℝ) (pos : ℤ)
    (central : ℝ × ℝ × ℝ) : Fin 9 → ℝ := fun a =>
  let i : ℤ := (a : ℤ) / 3 - 1
  let j : ℤ := (a : ℤ) % 3 - 1
  let r1 : ℝ := if (a : ℕ) = 4 then central.1 else redOf (in_data (pos + i * width + j))
  let g1 : ℝ := if (a : ℕ) = 4 then central.2.1 else greenOf (in_data (pos + i * width + j))
  let b1 : ℝ := if (a : ℕ) = 4 then central.2.2 else blueOf (in_data (pos + i * width + j))
  (r - r1) * (r - r1) + (g - g1) * (g - g1) + (b - b1) * (b - b1)

/-- One step of the inner scan `for j = 1..8: if weights[j] < min then ...`
of the partial-selection loop (strict `<`, so ties keep the earlier index). -/
def scanMinStep (ws : Fin 9 → WithTop ℝ) (acc : WithTop ℝ × Fin 9) (j : Fin 9) :
    WithTop ℝ × Fin 9 :=
  if ws j < acc.1 then (ws j, j) else acc

/-- The full scan locating the current minimum entry and its index,
starting from `min = weights[0], tmp = 0`. -/
def scanMin (ws : Fin 9 → WithTop ℝ) : WithTop ℝ × Fin 9 :=
  List.foldl (scanMinStep ws) (ws 0, 0)
    [(1 : Fin 9), 2, 3, 4, 5, 6, 7, 8]

/-- The partial-selection loop `for i = 0; i < alpha && i < 9; i++`:
each round adds the current minimum to the accumulator and overwrites the
extracted slot with `+INFINITY` (modelled by `⊤`). Returns the accumulated
sum of extracted minima. -/
def extractMinSum (ws : Fin 9 → WithTop ℝ) : ℕ → WithTop ℝ
  | 0 => 0
  | n + 1 =>
      (scanMin ws).1 +
        extractMinSum (Function.update ws (scanMin ws).2 ⊤) n

/-- `compute_weight_ms_rlsf`: fills the nine squared distances, extracts the
`min(alpha, 9)` smallest by repeated minimum extraction, averages by `alpha`
and applies the kernel `expf(-(w / sigma))` (the caller passes `2·sigma²`
as `sigma`). -/
def compute_weight_ms_rlsf (in_data : ℤ → ℕ) (width : ℤ) (r g b : ℝ)
    (pos : ℤ) (alpha : ℤ) (sigma : ℝ) (central : ℝ × ℝ × ℝ) : ℝ :=
  let ws : Fin 9 → WithTop ℝ :=
    fun a => ((nbhdDists in_data width r g b pos central a : ℝ) : WithTop ℝ)
  let w : ℝ := (extractMinSum ws (min alpha 9).toNat).untop' 0 / (alpha : ℝ)
  Real.exp (-(w / sigma))

/-! ### Mode-Seeking Iterator (`denoise_pixel_rlsf`) -/

/-- The transient per-pixel iteration state of `denoise_pixel_rlsf`:
floating-point position `(ir, ic)`, color estimate `(r, g, b)` and the
last convergence measure `diff`. -/
structure MSState where
  ir : ℝ
  ic : ℝ
  r : ℝ
  g : ℝ
  b : ℝ
  diff : ℝ

/-- `istart = MAX((int)round(ir) - radius - 1, 1)`. -/
def istartOf (radius : ℤ) (ir : ℝ) : ℤ := max (cround ir - radius - 1) 1

/-- `iend = MIN((int)round(ir) + radius + 1, height - 2)`. -/
def iendOf (radius height : ℤ) (ir : ℝ) : ℤ := min (cround ir + radius + 1) (height - 2)

/-- `jstart = MAX((int)round(ic) - radius - 1, 1)`. -/
def jstartOf (radius : ℤ) (ic : ℝ) : ℤ := max (cround ic - radius - 1) 1

/-- `jend = MIN((int)round(ic) + radius + 1, width - 2)`. -/
def jendOf (radius width : ℤ) (ic : ℝ) : ℤ := min (cround ic + radius + 1) (width - 2)

/-- The weight the window loop computes for the window cell
`q = i * width + j`: the Weight Evaluator applied to `q`'s unpacked color,
with the patch centered at the flat index `pos` of the current (rounded)
position and `central_pix` holding the current color estimate. -/
def cellWeight (in_data : ℤ → ℕ) (width : ℤ) (alpha : ℤ) (sigma : ℝ)
    (central : ℝ × ℝ × ℝ) (pos : ℤ) (i j : ℤ) : ℝ :=
  compute_weight_ms_rlsf in_data width
    (redOf (in_data (i * width + j)))
    (greenOf (in_data (i * width + j)))
    (blueOf (in_data (i * width + j)))
    pos alpha sigma central

/-- Total weight `wsum` accumulated over the clipped window
(exact-real summation; the C float additions are order-dependent but the
idealized sums are not). -/
def stepWsum (in_data : ℤ → ℕ) (width : ℤ) (alpha : ℤ) (sigma : ℝ)
    (central : ℝ × ℝ × ℝ) (pos istart iend jstart jend : ℤ) : ℝ :=
  ∑ i ∈ Finset.Icc istart iend, ∑ j ∈ Finset.Icc jstart jend,
    cellWeight in_data width alpha sigma central pos i j

/-- Weighted accumulation of a per-cell real quantity over the window
(used for the three color channels and the two coordinates). -/
def stepAcc (in_data : ℤ → ℕ) (width : ℤ) (alpha : ℤ) (sigma : ℝ)
    (central : ℝ × ℝ × ℝ) (pos istart iend jstart jend : ℤ) (f : ℤ → ℤ → ℝ) : ℝ :=
  ∑ i ∈ Finset.Icc istart iend, ∑ j ∈ Finset.Icc jstart jend,
    f i j * cellWeight in_data width alpha sigma central pos i j

/-- One execution of the `do { ... }` body of `denoise_pixel_rlsf`:
window clipping, weighted sums, the mean-shift update of color and
position, the non-negativity clamp of the position, and the convergence
measure `diff`. -/
def denoiseStep (in_data : ℤ → ℕ) (width height radius alpha : ℤ) (sigma : ℝ)
    (s : MSState) : MSState :=
  let istart := istartOf radius s.ir
  let iend := iendOf radius height s.ir
  let jstart := jstartOf radius s.ic
  let jend := jendOf radius width s.ic
  let central : ℝ × ℝ × ℝ := (s.r, s.g, s.b)
  let pos : ℤ := cround s.ir * width + cround s.ic
  let wsum := stepWsum in_data width alpha sigma central pos istart iend jstart jend
  let acc := stepAcc in_data width alpha sigma central pos istart iend jstart jend
  let r' := acc (fun i j => (redOf (in_data (i * width + j)) : ℝ)) / wsum
  let g' := acc (fun i j => (greenOf (in_data (i * width + j)) : ℝ)) / wsum
  let b' := acc (fun i j => (blueOf (in_data (i * width + j)) : ℝ)) / wsum
  let ir' := acc (fun i _ => (i : ℝ)) / wsum
  let ic' := acc (fun _ j => (j : ℝ)) / wsum
  let ir'' := if ir' < 0 then 0 else ir'
  let ic'' := if ic' < 0 then 0 else ic'
  { ir := ir''
    ic := ic''
    r := r'
    g := g'
    b := b'
    diff := (s.r - r') * (s.r - r') + (s.g - g') * (s.g - g') +
      (s.b - b') * (s.b - b') + (s.ir - ir'') * (s.ir - ir'') +
      (s.ic - ic'') * (s.ic - ic'') }

/-- The `do { ... } while (iter_count < iter && diff > 0)` loop: the fuel
argument is the number of body executions still permitted (`iter` at entry,
with a do-while executing at least once).  Returns the final state and the
number of body executions performed. -/
def denoiseLoop (in_data : ℤ → ℕ) (width height radius alpha : ℤ) (sigma : ℝ) :
    ℕ → MSState → MSState × ℕ
  | 0, s => (s, 0)
  | n + 1, s =>
      let s' := denoiseStep in_data width height radius alpha sigma s
      if 0 < s'.diff then
        let rest := denoiseLoop in_data width height radius alpha sigma n s'
        (rest.1, rest.2 + 1)
      else (s', 1)

/-- `denoise_pixel_rlsf`: skips pixels in the one-cell border
(`ic >= width - f || ir >= height - f || ic < f || ir < f` with `f = 1`,
returning `none`, i.e. the output cell is not written); otherwise runs the
mode-seeking loop from the pixel's own position and color and returns the
packed truncated final color written to `out_data[out_pos]`.  A do-while
performs `max 1 iter` body executions at most, which `max 1 iter.toNat`
reflects.  `initState` is the state set up before the loop: position
`(ir, ic)`, color unpacked from `in_data[pos]`, `diff = 0`. -/
def initState (in_data : ℤ → ℕ) (width : ℤ) (ic ir : ℤ) : MSState :=
  { ir := (ir : ℝ)
    ic := (ic : ℝ)
    r := (redOf (in_data (ir * width + ic)) : ℝ)
    g := (greenOf (in_data (ir * width + ic)) : ℝ)
    b := (blueOf (in_data (ir * width + ic)) : ℝ)
    diff := 0 }

def denoise_pixel_rlsf (in_data : ℤ → ℕ) (width height radius alpha : ℤ)
    (sigma : ℝ) (iter : ℤ) (ic ir : ℤ) : Option ℕ :=
  if ic ≥ width - 1 ∨ ir ≥ height - 1 ∨ ic < 1 ∨ ir < 1 then none
  else
    let s := (denoiseLoop in_data width height radius alpha sigma
        (max 1 iter.toNat) (initState in_data width ic ir)).1
    some (packRGB (truncToInt s.r).toNat (truncToInt s.g).toNat (truncToInt s.b).toNat)

/-! ### Parallel Filter Driver (`filter_ms_rlsf`) -/

/-- The packed working buffer built by the driver:
`int_in_data[i*num_cols+j] = (in[i][j][0] << 16) | (in[i][j][1] << 8) | in[i][j][2]`
(flat cells outside the allocated range do not exist in C; they read `0`
here and are never reached by in-bounds accesses). -/
def int_in_data (img : Image) : ℤ → ℕ := fun idx =>
  let w : ℤ := (img.num_cols : ℤ)
  if 0 ≤ idx ∧ idx < (img.num_rows : ℤ) * w then
    packRGB (img.data (idx / w).toNat (idx % w).toNat).1
      (img.data (idx / w).toNat (idx % w).toNat).2.1
      (img.data (idx / w).toNat (idx % w).toNat).2.2
  else 0

/-- The final packed output cell for flat index `idx`: the unique task
`(ir, ic) = (idx / w, idx % w)` either writes its `denoise_pixel_rlsf`
result there or (border skip) leaves the cell at the buffer's prior
content, modelled as `0`. -/
def int_out_data (img : Image) (r alpha : ℤ) (sigma : ℝ) (iter : ℤ) : ℤ → ℕ :=
  fun idx =>
    let w : ℤ := (img.num_cols : ℤ)
    let h : ℤ := (img.num_rows : ℤ)
    match denoise_pixel_rlsf (int_in_data img) w h r alpha (2 * sigma * sigma) iter
        (idx % w) (idx / w) with
    | some v => v
    | none => 0

/-- The success branch of the driver: an output image of type `PIX_RGB` and
the input's dimensions, with
`out[i][j][0] = (cell >> 16) & 0xFF`, `out[i][j][1] = (cell >> 8) & 0xFF`,
`out[i][j][2] = cell & 0xFF` where `cell = int_out_data[i*num_cols+j]`. -/
def rmsOutput (img : Image) (r alpha : ℤ) (sigma : ℝ) (iter : ℤ) : Image :=
  let w : ℤ := (img.num_cols : ℤ)
  { pix_type := PixelType.PIX_RGB
    num_rows := img.num_rows
    num_cols := img.num_cols
    data := fun i j =>
      ((int_out_data img r alpha sigma iter ((i : ℤ) * w + (j : ℤ)) >>> 16) &&& 0xFF,
       (int_out_data img r alpha sigma iter ((i : ℤ) * w + (j : ℤ)) >>> 8) &&& 0xFF,
       int_out_data img r alpha sigma iter ((i : ℤ) * w + (j : ℤ)) &&& 0xFF) }

/-- `filter_ms_rlsf`: argument validation (`is_rgb_img`, then `IS_POS` on
`r`, `alpha`, `sigma`, `iter`, each returning `NULL` on failure), the
silent clamp `if (alpha > 9) alpha = 9`, and the filtering pass dispatching
`denoise_pixel_rlsf` over every pixel with scale `2 * sigma * sigma`. -/
def filter_ms_rlsf (in_img : Image) (r alpha : ℤ) (sigma : ℝ) (iter : ℤ) :
    Option Image :=
  if ¬ is_rgb_img in_img then none
  else if ¬ IS_POS (r : ℝ) then none
  else if ¬ IS_POS (alpha : ℝ) then none
  else if ¬ IS_POS sigma then none
  else if ¬ IS_POS (iter : ℝ) then none
  else
    some (rmsOutput in_img r (if alpha > 9 then 9 else alpha) sigma iter)

/-- Modelled from the spec: `CUDA_filter_ms_rlsf`, the accelerator backend,
is declared in `image.h` but its implementation is not under `src/`.
Per the spec (§1, §5, §9) it runs the same Weight Evaluator and
Mode-Seeking Iterator once per pixel behind the same contract — a
host-to-device copy of the packed input, one lightweight thread per pixel,
and a device-to-host copy of the results — differing from the host backend
at most in floating-point summation order, which exact-real summation
renders immaterial.  It is therefore modelled as the same validated
pixel-parallel map. -/
def CUDA_filter_ms_rlsf (in_img : Image) (r alpha : ℤ) (sigma : ℝ) (iter : ℤ) :
    Option Image :=
  if ¬ is_rgb_img in_img then none
  else if ¬ IS_POS (r : ℝ) then none
  else if ¬ IS_POS (alpha : ℝ) then none
  else if ¬ IS_POS sigma then none
  else if ¬ IS_POS (iter : ℝ) then none
  else
    let deviceIn : Image := in_img
    let deviceOut : Image :=
      rmsOutput deviceIn r (if alpha > 9 then 9 else alpha) sigma iter
    some deviceOut

/-! ### Specification-side definitions used to state the claims -/

/-- The claims' reading of the trimmed average: sort the nine squared
distances ascending and average the first `alpha` of them ("the `alpha`
smallest"). -/
def sortedTrimAvg (d : Fin 9 → ℝ) (alpha : ℤ) : ℝ :=
  (((Finset.univ.val.map d).sort (· ≤ ·)).take (min alpha 9).toNat).sum / (alpha : ℝ)

/-- The nine-entry working array viewed as a multiset of values. -/
def nineVals (ws : Fin 9 → WithTop ℝ) : Multiset (WithTop ℝ) :=
  Multiset.map ws Finset.univ.val

/-- The per-pixel position invariant maintained by the mode-seeking loop:
the floating-point position stays inside the one-cell safety margin. -/
def posInv (width height : ℤ) (s : MSState) : Prop :=
  1 ≤ s.ir ∧ s.ir ≤ (height : ℝ) - 2 ∧ 1 ≤ s.ic ∧ s.ic ≤ (width : ℝ) - 2

/-- Loop invariant on a uniform image: in-margin position and the constant
color. -/
def uniformInv (width height : ℤ) (cr cg cb : ℕ) (s : MSState) : Prop :=
  posInv width height s ∧ s.r = (cr : ℝ) ∧ s.g = (cg : ℝ) ∧ s.b = (cb : ℝ)

/-- The concrete scenario image of the spec: 9×9, filled with
`(128, 128, 128)`. -/
def uimg9 : Image :=
  { pix_type := PixelType.PIX_RGB
    num_rows := 9
    num_cols := 9
    data := fun _ _ => (128, 128, 128) }

/-- The concrete 9×9 image refuting C4: the top-left 3×3 block (rows 0–2,
columns 0–2, flat indices 0, 1, 2, 9, 10, 11, 18, 19, 20) is red
`(255, 0, 0)`; everything else is black `(0, 0, 0)`. -/
def in_dataC4 : ℤ → ℕ := fun idx =>
  if idx = 0 ∨ idx = 1 ∨ idx = 2 ∨ idx = 9 ∨ idx = 10 ∨ idx = 11 ∨
      idx = 18 ∨ idx = 19 ∨ idx = 20
  then packRGB 255 0 0 else packRGB 0 0 0

/-- Modelled from claim C4's words (and spec §4.1): the weight a candidate
cell `q` would get if its nine distances were taken over the 3×3
neighborhood centered on `q` itself, center slot replaced by the reference
color, each distance measured to the reference color. -/
def claimWeightC4 (in_data : ℤ → ℕ) (width : ℤ) (ref : ℝ × ℝ × ℝ)
    (qpos : ℤ) (alpha : ℤ) (sigma : ℝ) : ℝ :=
  Real.exp (-(sortedTrimAvg
    (nbhdDists in_data width ref.1 ref.2.1 ref.2.2 qpos ref) alpha / sigma))

end

/-! ### Arithmetic readings of the packed-color bit operations -/

theorem and_shiftLeft_shiftRight (p m k : ℕ) :
    (p &&& (m <<< k)) >>> k = (p >>> k) &&& m := by
  apply Nat.eq_of_testBit_eq
  intro j
  simp [Nat.testBit_shiftRight, Nat.testBit_and, Nat.testBit_shiftLeft,
    Nat.add_sub_cancel_left, Nat.le_add_right]

theorem redOf_eq_div_mod (p : ℕ) : redOf p = p / 2 ^ 16 % 2 ^ 8 := by
  have h : (0xFF0000 : ℕ) = 0xFF <<< 16 := by decide
  have h2 : (0xFF : ℕ) = 2 ^ 8 - 1 := by decide
  rw [redOf, h, and_shiftLeft_shiftRight, h2, Nat.and_pow_two_sub_one_eq_mod,
    Nat.shiftRight_eq_div_pow]

theorem greenOf_eq_div_mod (p : ℕ) : greenOf p = p / 2 ^ 8 % 2 ^ 8 := by
  have h : (0xFF00 : ℕ) = 0xFF <<< 8 := by decide
  have h2 : (0xFF : ℕ) = 2 ^ 8 - 1 := by decide
  rw [greenOf, h, and_shiftLeft_shiftRight, h2, Nat.and_pow_two_sub_one_eq_mod,
    Nat.shiftRight_eq_div_pow]

theorem blueOf_eq_mod (p : ℕ) : blueOf p = p % 2 ^ 8 := by
  have h2 : (0xFF : ℕ) = 2 ^ 8 - 1 := by decide
  rw [blueOf, h2, Nat.and_pow_two_sub_one_eq_mod]

theorem packRGB_eq_arith (r g b : ℕ) (hg : g < 256) (hb : b < 256) :
    packRGB r g b = r * 2 ^ 16 + (g * 2 ^ 8 + b) := by
  have h1 : g <<< 8 ||| b = g * 2 ^ 8 + b := by
    rw [Nat.shiftLeft_eq, mul_comm g (2 ^ 8)]
    rw [(Nat.mul_add_lt_is_or hb g).symm, mul_comm]
  have hlt : g * 2 ^ 8 + b < 2 ^ 16 := by omega
  have h2 : r <<< 16 ||| (g * 2 ^ 8 + b) = r * 2 ^ 16 + (g * 2 ^ 8 + b) := by
    rw [Nat.shiftLeft_eq, mul_comm r (2 ^ 16)]
    rw [(Nat.mul_add_lt_is_or hlt r).symm, mul_comm]
  rw [packRGB, h1, h2]

theorem redOf_packRGB (r g b : ℕ) (hr : r < 256) (hg : g < 256) (hb : b < 256) :
    redOf (packRGB r g b) = r := by
  rw [redOf_eq_div_mod, packRGB_eq_arith r g b hg hb]; omega

theorem greenOf_packRGB (r g b : ℕ) (hg : g < 256) (hb : b < 256) :
    greenOf (packRGB r g b) = g := by
  rw [greenOf_eq_div_mod, packRGB_eq_arith r g b hg hb]; omega

theorem blueOf_packRGB (r g b : ℕ) (hg : g < 256) (hb : b < 256) :
    blueOf (packRGB r g b) = b := by
  rw [blueOf_eq_mod, packRGB_eq_arith r g b hg hb]; omega

theorem shr16_and_packRGB (r g b : ℕ) (hr : r < 256) (hg : g < 256) (hb : b < 256) :
    (packRGB r g b >>> 16) &&& 0xFF = r := by
  have h2 : (0xFF : ℕ) = 2 ^ 8 - 1 := by decide
  rw [h2, Nat.and_pow_two_sub_one_eq_mod, Nat.shiftRight_eq_div_pow,
    packRGB_eq_arith r g b hg hb]
  omega

theorem shr8_and_packRGB (r g b : ℕ) (hg : g < 256) (hb : b < 256) :
    (packRGB r g b >>> 8) &&& 0xFF = g := by
  have h2 : (0xFF : ℕ) = 2 ^ 8 - 1 := by decide
  rw [h2, Nat.and_pow_two_sub_one_eq_mod, Nat.shiftRight_eq_div_pow,
    packRGB_eq_arith r g b hg hb]
  omega

theorem and_ff_packRGB (r g b : ℕ) (hg : g < 256) (hb : b < 256) :
    packRGB r g b &&& 0xFF = b := by
  have h2 : (0xFF : ℕ) = 2 ^ 8 - 1 := by decide
  rw [h2, Nat.and_pow_two_sub_one_eq_mod, packRGB_eq_arith r g b hg hb]
  omega

/-! ### The minimum scan and the extraction loop -/

theorem foldl_scanMin_spec (ws : Fin 9 → WithTop ℝ) (l : List (Fin 9)) :
    ∀ acc : WithTop ℝ × Fin 9, acc.1 = ws acc.2 →
      (l.foldl (scanMinStep ws) acc).1 = ws (l.foldl (scanMinStep ws) acc).2 ∧
      (l.foldl (scanMinStep ws) acc).1 ≤ acc.1 ∧
      ∀ a ∈ l, (l.foldl (scanMinStep ws) acc).1 ≤ ws a := by
  induction l with
  | nil => intro acc h; exact ⟨h, le_refl _, by simp⟩
  | cons j t ih =>
      intro acc h
      have hstep : (scanMinStep ws acc j).1 = ws (scanMinStep ws acc j).2 := by
        unfold scanMinStep
        split <;> simp [h]
      have hle : (scanMinStep ws acc j).1 ≤ acc.1 := by
        unfold scanMinStep
        split <;> simp_all [le_of_lt]
      have hlej : (scanMinStep ws acc j).1 ≤ ws j := by
        unfold scanMinStep
        split
        · simp
        · simp_all [le_of_not_lt]
      obtain ⟨h1, h2, h3⟩ := ih (scanMinStep ws acc j) hstep
      refine ⟨by simpa using h1, le_trans (by simpa using h2) hle, ?_⟩
      intro a ha
      rcases List.mem_cons.mp ha with rfl | ha'
      · exact le_trans (by simpa using h2) hlej
      · simpa using h3 a ha'

theorem scanMin_spec (ws : Fin 9 → WithTop ℝ) :
    (scanMin ws).1 = ws (scanMin ws).2 ∧ ∀ a : Fin 9, (scanMin ws).1 ≤ ws a := by
  have hcover : ∀ a : Fin 9, a = 0 ∨ a ∈ [(1 : Fin 9), 2, 3, 4, 5, 6, 7, 8] := by decide
  obtain ⟨h1, h2, h3⟩ := foldl_scanMin_spec ws [(1 : Fin 9), 2, 3, 4, 5, 6, 7, 8]
    (ws 0, 0) rfl
  refine ⟨h1, fun a => ?_⟩
  rcases hcover a with rfl | ha
  · exact h2
  · exact h3 a ha

theorem nineVals_card (ws : Fin 9 → WithTop ℝ) : Multiset.card (nineVals ws) = 9 := by
  simp [nineVals]

theorem nineVals_cons (ws : Fin 9 → WithTop ℝ) (idx : Fin 9) :
    nineVals ws = ws idx ::ₘ Multiset.map ws (Finset.univ.erase idx).val := by
  unfold nineVals
  have h : (Finset.univ.val : Multiset (Fin 9)) =
      idx ::ₘ (Finset.univ.erase idx).val := by
    rw [Finset.erase_val]
    exact (Multiset.cons_erase (by simp)).symm
  rw [h, Multiset.map_cons]

theorem nineVals_update_top (ws : Fin 9 → WithTop ℝ) (idx : Fin 9) :
    nineVals (Function.update ws idx ⊤) =
      ⊤ ::ₘ Multiset.map ws (Finset.univ.erase idx).val := by
  rw [nineVals_cons (Function.update ws idx ⊤) idx]
  congr 1
  · simp
  · apply Multiset.map_congr rfl
    intro x hx
    have hne : x ≠ idx := by
      have : x ∈ Finset.univ.erase idx := hx
      exact (Finset.mem_erase.mp this).1
    simp [Function.update, hne]

theorem extractMinSum_eq_sorted_take :
    ∀ n : ℕ, n ≤ 9 → ∀ ws : Fin 9 → WithTop ℝ,
      extractMinSum ws n = (((nineVals ws).sort (· ≤ ·)).take n).sum := by
  intro n
  induction n with
  | zero => intro _ ws; simp [extractMinSum]
  | succ n ih =>
      intro hn ws
      obtain ⟨hval, hmin⟩ := scanMin_spec ws
      have hLsorted : ((nineVals ws).sort (· ≤ ·)).Sorted (· ≤ ·) :=
        Multiset.sort_sorted _ _
      have hLlen : ((nineVals ws).sort (· ≤ ·)).length = 9 := by
        rw [Multiset.length_sort, nineVals_card]
      have hLms : (((nineVals ws).sort (· ≤ ·) : List (WithTop ℝ)) :
          Multiset (WithTop ℝ)) = nineVals ws := Multiset.sort_eq _ _
      obtain ⟨b, T, hbT⟩ : ∃ b T, (nineVals ws).sort (· ≤ ·) = b :: T := by
        cases hLc : (nineVals ws).sort (· ≤ ·) with
        | nil => rw [hLc] at hLlen; simp at hLlen
        | cons b T => exact ⟨b, T, rfl⟩
      have hTlen : T.length = 8 := by
        have h9 := hLlen
        rw [hbT] at h9
        simpa using h9
      have hmL : (scanMin ws).1 ∈ (nineVals ws).sort (· ≤ ·) := by
        rw [Multiset.mem_sort, hval]
        exact Multiset.mem_map_of_mem ws (by simp)
      have hminL : ∀ x ∈ (nineVals ws).sort (· ≤ ·), (scanMin ws).1 ≤ x := by
        intro x hx
        rw [Multiset.mem_sort] at hx
        obtain ⟨a, _, rfl⟩ := Multiset.mem_map.mp hx
        exact hmin a
      have hbm : b = (scanMin ws).1 := by
        have hb_le : b ≤ (scanMin ws).1 := by
          rw [hbT] at hmL hLsorted
          rcases List.mem_cons.mp hmL with heq | hmT
          · exact le_of_eq heq.symm
          · exact List.rel_of_sorted_cons hLsorted _ hmT
        have hm_le : (scanMin ws).1 ≤ b :=
          hminL b (by rw [hbT]; exact List.mem_cons_self b T)
        exact le_antisymm hb_le hm_le
      have hTms : (T : Multiset (WithTop ℝ)) =
          Multiset.map ws (Finset.univ.erase (scanMin ws).2).val := by
        have h1 : (b ::ₘ (T : Multiset (WithTop ℝ))) = nineVals ws := by
          rw [Multiset.cons_coe, ← hbT, hLms]
        rw [nineVals_cons ws (scanMin ws).2, ← hval, ← hbm] at h1
        exact (Multiset.cons_inj_right _).mp h1
      have hsort_update :
          ((nineVals (Function.update ws (scanMin ws).2 ⊤)).sort (· ≤ ·)) =
          T ++ [⊤] := by
        apply List.eq_of_perm_of_sorted _ (Multiset.sort_sorted _ _)
        · rw [List.Sorted, List.pairwise_append]
          refine ⟨(List.sorted_cons.mp (hbT ▸ hLsorted)).2, by simp, ?_⟩
          intro x _ y hy
          simp only [List.mem_singleton] at hy
          subst hy
          exact le_top
        · apply Multiset.coe_eq_coe.mp
          rw [Multiset.sort_eq, nineVals_update_top, ← hTms, Multiset.cons_coe,
            Multiset.coe_eq_coe]
          exact (List.perm_append_singleton _ _).symm
      have hstep : extractMinSum ws (n + 1) =
          (scanMin ws).1 + extractMinSum (Function.update ws (scanMin ws).2 ⊤) n :=
        rfl
      rw [hstep, ih (by omega) (Function.update ws (scanMin ws).2 ⊤), hsort_update,
        List.take_append_of_le_length (by omega), hbT, List.take_succ_cons,
        List.sum_cons, hbm]

theorem list_sum_coe_withTop (l : List ℝ) :
    (l.map (fun x : ℝ => (x : WithTop ℝ))).sum = ((l.sum : ℝ) : WithTop ℝ) := by
  induction l with
  | nil => simp
  | cons x t ih => simp [ih]

theorem sort_map_coe_withTop (M : Multiset ℝ) :
    (Multiset.map (fun x : ℝ => (x : WithTop ℝ)) M).sort (· ≤ ·) =
      (M.sort (· ≤ ·)).map (fun x : ℝ => (x : WithTop ℝ)) := by
  apply List.eq_of_perm_of_sorted _ (Multiset.sort_sorted _ _)
  · exact List.Pairwise.map _ (fun a b hab => WithTop.coe_le_coe.mpr hab)
      (Multiset.sort_sorted _ M)
  · apply Multiset.coe_eq_coe.mp
    rw [Multiset.sort_eq, ← Multiset.map_coe, Multiset.sort_eq]

theorem extractMinSum_coe_eq_sorted_take (d : Fin 9 → ℝ) (n : ℕ) (hn : n ≤ 9) :
    (extractMinSum (fun a => ((d a : ℝ) : WithTop ℝ)) n).untop' 0 =
      (((Multiset.map d Finset.univ.val).sort (· ≤ ·)).take n).sum := by
  have h1 := extractMinSum_eq_sorted_take n hn (fun a => ((d a : ℝ) : WithTop ℝ))
  have h2 : nineVals (fun a => ((d a : ℝ) : WithTop ℝ)) =
      Multiset.map (fun x : ℝ => (x : WithTop ℝ))
        (Multiset.map d Finset.univ.val) := by
    rw [nineVals, Multiset.map_map]
    rfl
  rw [h1, h2, sort_map_coe_withTop, ← List.map_take, list_sum_coe_withTop,
    WithTop.untop'_coe]

theorem sorted_take_sum_nonneg (d : Fin 9 → ℝ) (hd : ∀ a, 0 ≤ d a) (n : ℕ) :
    0 ≤ (((Multiset.map d Finset.univ.val).sort (· ≤ ·)).take n).sum := by
  apply List.sum_nonneg
  intro x hx
  have hx2 : x ∈ (Multiset.map d Finset.univ.val).sort (· ≤ ·) :=
    List.take_subset _ _ hx
  rw [Multiset.mem_sort] at hx2
  obtain ⟨a, _, rfl⟩ := Multiset.mem_map.mp hx2
  exact hd a

theorem nbhdDists_nonneg (in_data : ℤ → ℕ) (width : ℤ) (r g b : ℝ) (pos : ℤ)
    (central : ℝ × ℝ × ℝ) (a : Fin 9) :
    0 ≤ nbhdDists in_data width r g b pos central a := by
  unfold nbhdDists
  dsimp only
  exact add_nonneg (add_nonneg (mul_self_nonneg _) (mul_self_nonneg _))
    (mul_self_nonneg _)

/-- The Weight Evaluator as a closed formula: the repeated
minimum-extraction computes the sorted-prefix (trimmed) average, so the
returned weight is the exponential kernel of that average. -/
theorem compute_weight_eq_kernel (in_data : ℤ → ℕ) (width pos : ℤ)
    (r g b : ℝ) (central : ℝ × ℝ × ℝ) (alpha : ℤ) (sigma : ℝ) :
    compute_weight_ms_rlsf in_data width r g b pos alpha sigma central =
      Real.exp (-(sortedTrimAvg (nbhdDists in_data width r g b pos central)
        alpha / sigma)) := by
  have hn : (min alpha 9).toNat ≤ 9 := by omega
  unfold compute_weight_ms_rlsf sortedTrimAvg
  dsimp only
  rw [extractMinSum_coe_eq_sorted_take (nbhdDists in_data width r g b pos central)
    (min alpha 9).toNat hn]

/-! ### Claim C1 -/

/-- Claim C1: for every reference color, candidate neighbor color, 3×3
neighborhood of colors, `alpha` in `[1, 9]` and scale `sigma = 2·σ² > 0`,
`compute_weight_ms_rlsf` returns `exp (-(m / sigma))` where `m` is the
average of the `alpha` smallest of the nine squared color-space Euclidean
distances (the repeated minimum-extraction of the source selects exactly
the `alpha` smallest entries of the sorted distance list), and the
returned weight lies in `(0, 1]`. -/
theorem C1_compute_weight_trimmed_kernel (in_data : ℤ → ℕ) (width pos : ℤ)
    (r g b : ℝ) (central : ℝ × ℝ × ℝ) (alpha : ℤ) (sigma : ℝ)
    (halpha1 : 1 ≤ alpha) (halpha9 : alpha ≤ 9) (hsigma : 0 < sigma) :
    compute_weight_ms_rlsf in_data width r g b pos alpha sigma central =
      Real.exp (-(sortedTrimAvg (nbhdDists in_data width r g b pos central)
        alpha / sigma)) ∧
    0 < compute_weight_ms_rlsf in_data width r g b pos alpha sigma central ∧
    compute_weight_ms_rlsf in_data width r g b pos alpha sigma central ≤ 1 := by
  have heq := compute_weight_eq_kernel in_data width pos r g b central alpha sigma
  refine ⟨heq, ?_, ?_⟩
  · rw [heq]; exact Real.exp_pos _
  · rw [heq]
    have havg : 0 ≤ sortedTrimAvg (nbhdDists in_data width r g b pos central)
        alpha := by
      unfold sortedTrimAvg
      apply div_nonneg
      · exact sorted_take_sum_nonneg _ (nbhdDists_nonneg in_data width r g b pos central) _
      · exact_mod_cast by omega
    calc Real.exp (-(sortedTrimAvg (nbhdDists in_data width r g b pos central)
          alpha / sigma)) ≤ Real.exp 0 := by
          apply Real.exp_le_exp.mpr
          have : 0 ≤ sortedTrimAvg (nbhdDists in_data width r g b pos central)
              alpha / sigma := div_nonneg havg (le_of_lt hsigma)
          linarith
      _ = 1 := Real.exp_zero

/-- Witness for C1 at a concrete input. -/
theorem C1_witness :
    0 < compute_weight_ms_rlsf (fun _ => 0) 3 1 2 3 0 1 1 ((0 : ℝ), (0 : ℝ), (0 : ℝ)) ∧
    compute_weight_ms_rlsf (fun _ => 0) 3 1 2 3 0 1 1 ((0 : ℝ), (0 : ℝ), (0 : ℝ)) ≤ 1 :=
  (C1_compute_weight_trimmed_kernel (fun _ => 0) 3 0 1 2 3
    ((0 : ℝ), (0 : ℝ), (0 : ℝ)) 1 1 (by decide) (by decide) (by norm_num)).2

/-! ### Window geometry and the position invariant -/

theorem cround_of_nonneg {x : ℝ} (hx : 0 ≤ x) : cround x = ⌊x + 1 / 2⌋ := by
  unfold cround
  exact if_pos hx

theorem cround_bounds {x : ℝ} {lo hi : ℤ} (h0 : 0 ≤ lo) (hlo : (lo : ℝ) ≤ x)
    (hhi : x ≤ (hi : ℝ)) : lo ≤ cround x ∧ cround x ≤ hi := by
  have hx : 0 ≤ x := le_trans (by exact_mod_cast h0) hlo
  rw [cround_of_nonneg hx]
  constructor
  · have h1 : ((lo : ℝ) + 1 / 2) ≤ x + 1 / 2 := by linarith
    have h2 : ⌊(lo : ℝ) + 1 / 2⌋ ≤ ⌊x + 1 / 2⌋ := Int.floor_le_floor h1
    rwa [Int.floor_int_add, show ⌊(1 : ℝ) / 2⌋ = 0 by norm_num, add_zero] at h2
  · have h1 : x + 1 / 2 ≤ (hi : ℝ) + 1 / 2 := by linarith
    have h2 : ⌊x + 1 / 2⌋ ≤ ⌊(hi : ℝ) + 1 / 2⌋ := Int.floor_le_floor h1
    rwa [Int.floor_int_add, show ⌊(1 : ℝ) / 2⌋ = 0 by norm_num, add_zero] at h2

theorem window_bounds {radius d : ℤ} (hr : 1 ≤ radius) {x : ℝ}
    (h1 : 1 ≤ x) (h2 : x ≤ (d : ℝ) - 2) :
    1 ≤ istartOf radius x ∧ istartOf radius x ≤ iendOf radius d x ∧
      iendOf radius d x ≤ d - 2 ∧
      1 ≤ cround x ∧ cround x ≤ d - 2 := by
  have hc : 1 ≤ cround x ∧ cround x ≤ d - 2 := by
    refine cround_bounds (by omega) (by exact_mod_cast h1) ?_
    push_cast
    linarith
  unfold istartOf iendOf
  omega

theorem jstartOf_eq (radius : ℤ) (x : ℝ) : jstartOf radius x = istartOf radius x := rfl

theorem jendOf_eq (radius width : ℤ) (x : ℝ) : jendOf radius width x = iendOf radius width x := rfl

theorem compute_weight_pos (in_data : ℤ → ℕ) (width : ℤ) (r g b : ℝ)
    (pos : ℤ) (alpha : ℤ) (sigma : ℝ) (central : ℝ × ℝ × ℝ) :
    0 < compute_weight_ms_rlsf in_data width r g b pos alpha sigma central :=
  Real.exp_pos _

theorem cellWeight_pos (in_data : ℤ → ℕ) (width alpha : ℤ) (sigma : ℝ)
    (central : ℝ × ℝ × ℝ) (pos i j : ℤ) :
    0 < cellWeight in_data width alpha sigma central pos i j :=
  Real.exp_pos _

theorem stepWsum_pos (in_data : ℤ → ℕ) (width alpha : ℤ) (sigma : ℝ)
    (central : ℝ × ℝ × ℝ) (pos : ℤ) {istart iend jstart jend : ℤ}
    (hij : istart ≤ iend) (hkl : jstart ≤ jend) :
    0 < stepWsum in_data width alpha sigma central pos istart iend jstart jend := by
  unfold stepWsum
  apply Finset.sum_pos
  · intro i _
    apply Finset.sum_pos
    · intro j _
      exact cellWeight_pos _ _ _ _ _ _ _ _
    · exact Finset.nonempty_Icc.mpr hkl
  · exact Finset.nonempty_Icc.mpr hij

theorem stepAcc_le (in_data : ℤ → ℕ) (width alpha : ℤ) (sigma : ℝ)
    (central : ℝ × ℝ × ℝ) (pos : ℤ) (istart iend jstart jend : ℤ)
    (f : ℤ → ℤ → ℝ) (c : ℝ)
    (hf : ∀ i ∈ Finset.Icc istart iend, ∀ j ∈ Finset.Icc jstart jend, f i j ≤ c) :
    stepAcc in_data width alpha sigma central pos istart iend jstart jend f ≤
      c * stepWsum in_data width alpha sigma central pos istart iend jstart jend := by
  unfold stepAcc stepWsum
  rw [Finset.mul_sum]
  apply Finset.sum_le_sum
  intro i hi
  rw [Finset.mul_sum]
  apply Finset.sum_le_sum
  intro j hj
  exact mul_le_mul_of_nonneg_right (hf i hi j hj)
    (le_of_lt (cellWeight_pos _ _ _ _ _ _ _ _))

theorem le_stepAcc (in_data : ℤ → ℕ) (width alpha : ℤ) (sigma : ℝ)
    (central : ℝ × ℝ × ℝ) (pos : ℤ) (istart iend jstart jend : ℤ)
    (f : ℤ → ℤ → ℝ) (c : ℝ)
    (hf : ∀ i ∈ Finset.Icc istart iend, ∀ j ∈ Finset.Icc jstart jend, c ≤ f i j) :
    c * stepWsum in_data width alpha sigma central pos istart iend jstart jend ≤
      stepAcc in_data width alpha sigma central pos istart iend jstart jend f := by
  unfold stepAcc stepWsum
  rw [Finset.mul_sum]
  apply Finset.sum_le_sum
  intro i hi
  rw [Finset.mul_sum]
  apply Finset.sum_le_sum
  intro j hj
  exact mul_le_mul_of_nonneg_right (hf i hi j hj)
    (le_of_lt (cellWeight_pos _ _ _ _ _ _ _ _))

theorem denoiseStep_posInv (in_data : ℤ → ℕ) {width height radius : ℤ} (alpha : ℤ)
    (sigma : ℝ) (hr : 1 ≤ radius) {s : MSState} (hs : posInv width height s) :
    posInv width height (denoiseStep in_data width height radius alpha sigma s) := by
  obtain ⟨h1, h2, h3, h4⟩ := hs
  have hwr := window_bounds (d := height) hr h1 h2
  have hwc := window_bounds (d := width) hr h3 h4
  unfold posInv denoiseStep
  dsimp only
  rw [jstartOf_eq, jendOf_eq]
  have hW : 0 < stepWsum in_data width alpha sigma (s.r, s.g, s.b)
      (cround s.ir * width + cround s.ic) (istartOf radius s.ir)
      (iendOf radius height s.ir) (istartOf radius s.ic)
      (iendOf radius width s.ic) :=
    stepWsum_pos _ _ _ _ _ _ hwr.2.1 hwc.2.1
  have hAdiv : ((istartOf radius s.ir : ℝ)) ≤
      stepAcc in_data width alpha sigma (s.r, s.g, s.b)
        (cround s.ir * width + cround s.ic) (istartOf radius s.ir)
        (iendOf radius height s.ir) (istartOf radius s.ic)
        (iendOf radius width s.ic) (fun i _ => (i : ℝ)) /
      stepWsum in_data width alpha sigma (s.r, s.g, s.b)
        (cround s.ir * width + cround s.ic) (istartOf radius s.ir)
        (iendOf radius height s.ir) (istartOf radius s.ic)
        (iendOf radius width s.ic) := by
    rw [le_div_iff₀ hW]
    apply le_stepAcc
    intro i hi j _
    exact_mod_cast (Finset.mem_Icc.mp hi).1
  have hAdiv2 : stepAcc in_data width alpha sigma (s.r, s.g, s.b)
        (cround s.ir * width + cround s.ic) (istartOf radius s.ir)
        (iendOf radius height s.ir) (istartOf radius s.ic)
        (iendOf radius width s.ic) (fun i _ => (i : ℝ)) /
      stepWsum in_data width alpha sigma (s.r, s.g, s.b)
        (cround s.ir * width + cround s.ic) (istartOf radius s.ir)
        (iendOf radius height s.ir) (istartOf radius s.ic)
        (iendOf radius width s.ic) ≤ ((iendOf radius height s.ir : ℝ)) := by
    rw [div_le_iff₀ hW]
    apply stepAcc_le
    intro i hi j _
    exact_mod_cast (Finset.mem_Icc.mp hi).2
  have hBdiv : ((istartOf radius s.ic : ℝ)) ≤
      stepAcc in_data width alpha sigma (s.r, s.g, s.b)
        (cround s.ir * width + cround s.ic) (istartOf radius s.ir)
        (iendOf radius height s.ir) (istartOf radius s.ic)
        (iendOf radius width s.ic) (fun _ j => (j : ℝ)) /
      stepWsum in_data width alpha sigma (s.r, s.g, s.b)
        (cround s.ir * width + cround s.ic) (istartOf radius s.ir)
        (iendOf radius height s.ir) (istartOf radius s.ic)
        (iendOf radius width s.ic) := by
    rw [le_div_iff₀ hW]
    apply le_stepAcc
    intro i _ j hj
    exact_mod_cast (Finset.mem_Icc.mp hj).1
  have hBdiv2 : stepAcc in_data width alpha sigma (s.r, s.g, s.b)
        (cround s.ir * width + cround s.ic) (istartOf radius s.ir)
        (iendOf radius height s.ir) (istartOf radius s.ic)
        (iendOf radius width s.ic) (fun _ j => (j : ℝ)) /
      stepWsum in_data width alpha sigma (s.r, s.g, s.b)
        (cround s.ir * width + cround s.ic) (istartOf radius s.ir)
        (iendOf radius height s.ir) (istartOf radius s.ic)
        (iendOf radius width s.ic) ≤ ((iendOf radius width s.ic : ℝ)) := by
    rw [div_le_iff₀ hW]
    apply stepAcc_le
    intro i _ j hj
    exact_mod_cast (Finset.mem_Icc.mp hj).2
  have hIS1 : (1 : ℝ) ≤ (istartOf radius s.ir : ℝ) := by exact_mod_cast hwr.1
  have hIE1 : ((iendOf radius height s.ir : ℝ)) ≤ (height : ℝ) - 2 := by
    have h := hwr.2.2.1
    have h2 : ((iendOf radius height s.ir : ℝ)) ≤ ((height - 2 : ℤ) : ℝ) := by exact_mod_cast h
    push_cast at h2
    linarith
  have hJS1 : (1 : ℝ) ≤ (istartOf radius s.ic : ℝ) := by exact_mod_cast hwc.1
  have hJE1 : ((iendOf radius width s.ic : ℝ)) ≤ (width : ℝ) - 2 := by
    have h := hwc.2.2.1
    have h2 : ((iendOf radius width s.ic : ℝ)) ≤ ((width - 2 : ℤ) : ℝ) := by exact_mod_cast h
    push_cast at h2
    linarith
  constructor
  · rw [if_neg (by linarith)]
    linarith
  refine ⟨?_, ?_, ?_⟩
  · rw [if_neg (by linarith)]
    linarith
  · rw [if_neg (by linarith)]
    linarith
  · rw [if_neg (by linarith)]
    linarith

/-! ### The do-while loop: iteration-count characterization -/

section LoopLemmas

variable (in_data : ℤ → ℕ) (width height radius alpha : ℤ) (sigma : ℝ)

theorem denoiseLoop_spec :
    ∀ fuel : ℕ, 1 ≤ fuel → ∀ s : MSState,
      (denoiseLoop in_data width height radius alpha sigma fuel s).1 =
        (denoiseStep in_data width height radius alpha sigma)^[
          (denoiseLoop in_data width height radius alpha sigma fuel s).2] s ∧
      1 ≤ (denoiseLoop in_data width height radius alpha sigma fuel s).2 ∧
      (denoiseLoop in_data width height radius alpha sigma fuel s).2 ≤ fuel ∧
      ((denoiseLoop in_data width height radius alpha sigma fuel s).2 = fuel ∨
        (denoiseLoop in_data width height radius alpha sigma fuel s).1.diff ≤ 0) ∧
      (∀ j : ℕ, 1 ≤ j →
        j < (denoiseLoop in_data width height radius alpha sigma fuel s).2 →
        0 < ((denoiseStep in_data width height radius alpha sigma)^[j] s).diff) := by
  intro fuel
  induction fuel with
  | zero => intro h; omega
  | succ n ih =>
      intro _ s
      by_cases hd :
          0 < (denoiseStep in_data width height radius alpha sigma s).diff
      · rcases Nat.eq_zero_or_pos n with hn | hn
        · subst hn
          have hres : denoiseLoop in_data width height radius alpha sigma 1 s =
              (denoiseStep in_data width height radius alpha sigma s, 1) := by
            unfold denoiseLoop
            rw [if_pos hd]
            rfl
          rw [hres]
          refine ⟨by simp, by omega, by omega, Or.inl rfl, ?_⟩
          intro j hj1 hj2
          omega
        · have hres : denoiseLoop in_data width height radius alpha sigma (n + 1) s =
              ((denoiseLoop in_data width height radius alpha sigma n
                  (denoiseStep in_data width height radius alpha sigma s)).1,
               (denoiseLoop in_data width height radius alpha sigma n
                  (denoiseStep in_data width height radius alpha sigma s)).2 + 1) := by
            conv_lhs => unfold denoiseLoop
            rw [if_pos hd]
          obtain ⟨ih1, ih2, ih3, ih4, ih5⟩ :=
            ih hn (denoiseStep in_data width height radius alpha sigma s)
          rw [hres]
          refine ⟨?_, by omega, by omega, ?_, ?_⟩
          · rw [Function.iterate_succ_apply]
            exact ih1
          · rcases ih4 with h4 | h4
            · exact Or.inl (by omega)
            · exact Or.inr h4
          · intro j hj1 hj2
            rcases Nat.eq_or_lt_of_le hj1 with hj | hj
            · rw [← hj]
              simpa using hd
            · have hj' : 1 ≤ j - 1 := by omega
              have hj'' : j - 1 <
                  (denoiseLoop in_data width height radius alpha sigma n
                    (denoiseStep in_data width height radius alpha sigma s)).2 := by
                omega
              have := ih5 (j - 1) hj' hj''
              rw [← Function.iterate_succ_apply] at this
              have hjeq : (j - 1).succ = j := by omega
              rwa [hjeq] at this
      · have hres : denoiseLoop in_data width height radius alpha sigma (n + 1) s =
            (denoiseStep in_data width height radius alpha sigma s, 1) := by
          conv_lhs => unfold denoiseLoop
          rw [if_neg hd]
        rw [hres]
        refine ⟨by simp, by omega, by omega, Or.inr (by simpa using not_lt.mp hd), ?_⟩
        intro j hj1 hj2
        omega

/-- Iterating the body preserves the position invariant; hence so does the
whole loop, whatever the iteration count. -/
theorem iterate_posInv (hr : 1 ≤ radius) {s : MSState}
    (hs : posInv width height s) (n : ℕ) :
    posInv width height ((denoiseStep in_data width height radius alpha sigma)^[n] s) := by
  induction n with
  | zero => simpa using hs
  | succ k ihk =>
      rw [Function.iterate_succ_apply']
      exact denoiseStep_posInv in_data alpha sigma hr ihk

end LoopLemmas

/-! ### Claims C5, C6 and C9 -/

/-- Claim C5: for every processed pixel (the loop is entered with any
initial state), the mode-seeking loop body executes at least once and at
most `iter` times; the final state is the body iterated exactly that many
times; the loop stops exactly when the iteration count has reached `iter`
or the last update's `diff` is `≤ 0` (every earlier update had
`diff > 0`). -/
theorem C5_loop_iteration_count (in_data : ℤ → ℕ) (width height radius alpha : ℤ)
    (sigma : ℝ) (iter : ℤ) (hiter : 1 ≤ iter) (s0 : MSState) :
    1 ≤ (denoiseLoop in_data width height radius alpha sigma
        (max 1 iter.toNat) s0).2 ∧
    ((denoiseLoop in_data width height radius alpha sigma
        (max 1 iter.toNat) s0).2 : ℤ) ≤ iter ∧
    (denoiseLoop in_data width height radius alpha sigma (max 1 iter.toNat) s0).1 =
      (denoiseStep in_data width height radius alpha sigma)^[
        (denoiseLoop in_data width height radius alpha sigma
          (max 1 iter.toNat) s0).2] s0 ∧
    (((denoiseLoop in_data width height radius alpha sigma
        (max 1 iter.toNat) s0).2 : ℤ) = iter ∨
      (denoiseLoop in_data width height radius alpha sigma
        (max 1 iter.toNat) s0).1.diff ≤ 0) ∧
    (∀ j : ℕ, 1 ≤ j →
      j < (denoiseLoop in_data width height radius alpha sigma
        (max 1 iter.toNat) s0).2 →
      0 < ((denoiseStep in_data width height radius alpha sigma)^[j] s0).diff) := by
  have hfuel : 1 ≤ max 1 iter.toNat := le_max_left _ _
  obtain ⟨h1, h2, h3, h4, h5⟩ :=
    denoiseLoop_spec in_data width height radius alpha sigma (max 1 iter.toNat)
      hfuel s0
  have hmax : (max 1 iter.toNat : ℤ) = iter := by omega
  refine ⟨h2, by omega, h1, ?_, h5⟩
  rcases h4 with h4 | h4
  · exact Or.inl (by omega)
  · exact Or.inr h4

/-- Witness for C5 at a concrete input. -/
theorem C5_witness :
    1 ≤ (denoiseLoop (fun _ => 0) 9 9 1 3 1 (max 1 (5 : ℤ).toNat)
        (initState (fun _ => 0) 9 2 2)).2 ∧
    ((denoiseLoop (fun _ => 0) 9 9 1 3 1 (max 1 (5 : ℤ).toNat)
        (initState (fun _ => 0) 9 2 2)).2 : ℤ) ≤ 5 :=
  ⟨(C5_loop_iteration_count (fun _ => 0) 9 9 1 3 1 5 (by decide)
      (initState (fun _ => 0) 9 2 2)).1,
   (C5_loop_iteration_count (fun _ => 0) 9 9 1 3 1 5 (by decide)
      (initState (fun _ => 0) 9 2 2)).2.1⟩

/-- Claim C6: for a processed pixel (coordinates at least 1 away from every
edge) and every iteration, the clipped window satisfies
`1 ≤ istart ≤ iend ≤ numRows - 2` and `1 ≤ jstart ≤ jend ≤ numCols - 2`,
and every buffer read of the iteration — each window cell `(i, j)` and
each cell of the 3×3 patch around the current rounded position — addresses
a row in `[0, numRows - 1]` and a column in `[0, numCols - 1]` (the patch's
flat index decomposing accordingly). -/
theorem C6_window_and_reads_in_bounds (in_data : ℤ → ℕ)
    (width height radius alpha : ℤ) (sigma : ℝ) (ic ir : ℤ)
    (hr : 1 ≤ radius) (hic1 : 1 ≤ ic) (hic2 : ic ≤ width - 2)
    (hir1 : 1 ≤ ir) (hir2 : ir ≤ height - 2) (n : ℕ) :
    1 ≤ istartOf radius ((denoiseStep in_data width height radius alpha sigma)^[n]
        (initState in_data width ic ir)).ir ∧
    istartOf radius ((denoiseStep in_data width height radius alpha sigma)^[n]
        (initState in_data width ic ir)).ir ≤
      iendOf radius height ((denoiseStep in_data width height radius alpha sigma)^[n]
        (initState in_data width ic ir)).ir ∧
    iendOf radius height ((denoiseStep in_data width height radius alpha sigma)^[n]
        (initState in_data width ic ir)).ir ≤ height - 2 ∧
    1 ≤ jstartOf radius ((denoiseStep in_data width height radius alpha sigma)^[n]
        (initState in_data width ic ir)).ic ∧
    jstartOf radius ((denoiseStep in_data width height radius alpha sigma)^[n]
        (initState in_data width ic ir)).ic ≤
      jendOf radius width ((denoiseStep in_data width height radius alpha sigma)^[n]
        (initState in_data width ic ir)).ic ∧
    jendOf radius width ((denoiseStep in_data width height radius alpha sigma)^[n]
        (initState in_data width ic ir)).ic ≤ width - 2 ∧
    (∀ i ∈ Finset.Icc
        (istartOf radius ((denoiseStep in_data width height radius alpha sigma)^[n]
          (initState in_data width ic ir)).ir)
        (iendOf radius height ((denoiseStep in_data width height radius alpha sigma)^[n]
          (initState in_data width ic ir)).ir),
      ∀ j ∈ Finset.Icc
        (jstartOf radius ((denoiseStep in_data width height radius alpha sigma)^[n]
          (initState in_data width ic ir)).ic)
        (jendOf radius width ((denoiseStep in_data width height radius alpha sigma)^[n]
          (initState in_data width ic ir)).ic),
        0 ≤ i ∧ i ≤ height - 1 ∧ 0 ≤ j ∧ j ≤ width - 1) ∧
    (∀ di ∈ Finset.Icc (-1 : ℤ) 1, ∀ dj ∈ Finset.Icc (-1 : ℤ) 1,
      (cround ((denoiseStep in_data width height radius alpha sigma)^[n]
          (initState in_data width ic ir)).ir * width +
        cround ((denoiseStep in_data width height radius alpha sigma)^[n]
          (initState in_data width ic ir)).ic) + di * width + dj =
        (cround ((denoiseStep in_data width height radius alpha sigma)^[n]
          (initState in_data width ic ir)).ir + di) * width +
        (cround ((denoiseStep in_data width height radius alpha sigma)^[n]
          (initState in_data width ic ir)).ic + dj) ∧
      0 ≤ cround ((denoiseStep in_data width height radius alpha sigma)^[n]
          (initState in_data width ic ir)).ir + di ∧
      cround ((denoiseStep in_data width height radius alpha sigma)^[n]
          (initState in_data width ic ir)).ir + di ≤ height - 1 ∧
      0 ≤ cround ((denoiseStep in_data width height radius alpha sigma)^[n]
          (initState in_data width ic ir)).ic + dj ∧
      cround ((denoiseStep in_data width height radius alpha sigma)^[n]
          (initState in_data width ic ir)).ic + dj ≤ width - 1) := by
  have hinv0 : posInv width height (initState in_data width ic ir) := by
    refine ⟨?_, ?_, ?_, ?_⟩ <;> unfold initState <;> dsimp only
    · exact_mod_cast hir1
    · have : (ir : ℝ) ≤ ((height - 2 : ℤ) : ℝ) := by exact_mod_cast hir2
      push_cast at this
      linarith
    · exact_mod_cast hic1
    · have : (ic : ℝ) ≤ ((width - 2 : ℤ) : ℝ) := by exact_mod_cast hic2
      push_cast at this
      linarith
  have hinv := iterate_posInv in_data width height radius alpha sigma hr hinv0 n
  obtain ⟨p1, p2, p3, p4⟩ := hinv
  have hwr := window_bounds (d := height) hr p1 p2
  have hwc := window_bounds (d := width) hr p3 p4
  rw [jstartOf_eq, jendOf_eq]
  refine ⟨hwr.1, hwr.2.1, hwr.2.2.1, hwc.1, hwc.2.1, hwc.2.2.1, ?_, ?_⟩
  · intro i hi j hj
    rw [Finset.mem_Icc] at hi hj
    have h1 := hwr.1
    have h2 := hwr.2.2.1
    have h3 := hwc.1
    have h4 := hwc.2.2.1
    omega
  · intro di hdi dj hdj
    rw [Finset.mem_Icc] at hdi hdj
    have h1 := hwr.2.2.2
    have h2 := hwc.2.2.2
    refine ⟨by ring, by omega, by omega, by omega, by omega⟩

/-- Witness for C6 at a concrete input. -/
theorem C6_witness :
    1 ≤ istartOf 1 ((denoiseStep (fun _ => 0) 9 9 1 3 1)^[2]
        (initState (fun _ => 0) 9 3 4)).ir ∧
    istartOf 1 ((denoiseStep (fun _ => 0) 9 9 1 3 1)^[2]
        (initState (fun _ => 0) 9 3 4)).ir ≤
      iendOf 1 9 ((denoiseStep (fun _ => 0) 9 9 1 3 1)^[2]
        (initState (fun _ => 0) 9 3 4)).ir :=
  ⟨(C6_window_and_reads_in_bounds (fun _ => 0) 9 9 1 3 1 3 4 (by decide)
      (by decide) (by decide) (by decide) (by decide) 2).1,
   (C6_window_and_reads_in_bounds (fun _ => 0) 9 9 1 3 1 3 4 (by decide)
      (by decide) (by decide) (by decide) (by decide) 2).2.1⟩

/-- Claim C9: every weight returned by the Weight Evaluator is strictly
positive (the exponential never vanishes), hence for a processed pixel the
accumulated window weight `wsum` of every iteration is strictly positive,
so the divisions deriving the new color and position never divide by
zero. -/
theorem C9_weights_and_wsum_positive :
    (∀ (in_data : ℤ → ℕ) (width : ℤ) (r g b : ℝ) (pos alpha : ℤ) (sigma : ℝ)
      (central : ℝ × ℝ × ℝ),
      0 < compute_weight_ms_rlsf in_data width r g b pos alpha sigma central) ∧
    (∀ (in_data : ℤ → ℕ) (width height radius alpha : ℤ) (sigma : ℝ) (ic ir : ℤ),
      1 ≤ radius → 1 ≤ ic → ic ≤ width - 2 → 1 ≤ ir → ir ≤ height - 2 →
      ∀ n : ℕ,
        0 < stepWsum in_data width alpha sigma
          (((denoiseStep in_data width height radius alpha sigma)^[n]
              (initState in_data width ic ir)).r,
           ((denoiseStep in_data width height radius alpha sigma)^[n]
              (initState in_data width ic ir)).g,
           ((denoiseStep in_data width height radius alpha sigma)^[n]
              (initState in_data width ic ir)).b)
          (cround ((denoiseStep in_data width height radius alpha sigma)^[n]
              (initState in_data width ic ir)).ir * width +
            cround ((denoiseStep in_data width height radius alpha sigma)^[n]
              (initState in_data width ic ir)).ic)
          (istartOf radius ((denoiseStep in_data width height radius alpha sigma)^[n]
              (initState in_data width ic ir)).ir)
          (iendOf radius height ((denoiseStep in_data width height radius alpha sigma)^[n]
              (initState in_data width ic ir)).ir)
          (jstartOf radius ((denoiseStep in_data width height radius alpha sigma)^[n]
              (initState in_data width ic ir)).ic)
          (jendOf radius width ((denoiseStep in_data width height radius alpha sigma)^[n]
              (initState in_data width ic ir)).ic)) := by
  constructor
  · intro in_data width r g b pos alpha sigma central
    exact compute_weight_pos in_data width r g b pos alpha sigma central
  · intro in_data width height radius alpha sigma ic ir hr hic1 hic2 hir1 hir2 n
    have hinv0 : posInv width height (initState in_data width ic ir) := by
      refine ⟨?_, ?_, ?_, ?_⟩ <;> unfold initState <;> dsimp only
      · exact_mod_cast hir1
      · have : (ir : ℝ) ≤ ((height - 2 : ℤ) : ℝ) := by exact_mod_cast hir2
        push_cast at this
        linarith
      · exact_mod_cast hic1
      · have : (ic : ℝ) ≤ ((width - 2 : ℤ) : ℝ) := by exact_mod_cast hic2
        push_cast at this
        linarith
    have hinv := iterate_posInv in_data width height radius alpha sigma hr hinv0 n
    obtain ⟨p1, p2, p3, p4⟩ := hinv
    have hwr := window_bounds (d := height) hr p1 p2
    have hwc := window_bounds (d := width) hr p3 p4
    rw [jstartOf_eq, jendOf_eq]
    exact stepWsum_pos _ _ _ _ _ _ hwr.2.1 hwc.2.1

/-- Witness for C9 at a concrete input. -/
theorem C9_witness :
    0 < compute_weight_ms_rlsf (fun _ => 0) 3 1 2 3 0 5 1
      ((0 : ℝ), (0 : ℝ), (0 : ℝ)) ∧
    0 < stepWsum (fun _ => 0) 9 3 1
      (((denoiseStep (fun _ => 0) 9 9 1 3 1)^[1] (initState (fun _ => 0) 9 2 2)).r,
       ((denoiseStep (fun _ => 0) 9 9 1 3 1)^[1] (initState (fun _ => 0) 9 2 2)).g,
       ((denoiseStep (fun _ => 0) 9 9 1 3 1)^[1] (initState (fun _ => 0) 9 2 2)).b)
      (cround ((denoiseStep (fun _ => 0) 9 9 1 3 1)^[1]
          (initState (fun _ => 0) 9 2 2)).ir * 9 +
        cround ((denoiseStep (fun _ => 0) 9 9 1 3 1)^[1]
          (initState (fun _ => 0) 9 2 2)).ic)
      (istartOf 1 ((denoiseStep (fun _ => 0) 9 9 1 3 1)^[1]
          (initState (fun _ => 0) 9 2 2)).ir)
      (iendOf 1 9 ((denoiseStep (fun _ => 0) 9 9 1 3 1)^[1]
          (initState (fun _ => 0) 9 2 2)).ir)
      (jstartOf 1 ((denoiseStep (fun _ => 0) 9 9 1 3 1)^[1]
          (initState (fun _ => 0) 9 2 2)).ic)
      (jendOf 1 9 ((denoiseStep (fun _ => 0) 9 9 1 3 1)^[1]
          (initState (fun _ => 0) 9 2 2)).ic) :=
  ⟨C9_weights_and_wsum_positive.1 (fun _ => 0) 3 1 2 3 0 5 1
      ((0 : ℝ), (0 : ℝ), (0 : ℝ)),
   C9_weights_and_wsum_positive.2 (fun _ => 0) 9 9 1 3 1 2 2 (by decide)
      (by decide) (by decide) (by decide) (by decide) 1⟩

/-! ### Uniform images: the mode-seeking loop preserves a constant color -/

theorem stepAcc_const (in_data : ℤ → ℕ) (width alpha : ℤ) (sigma : ℝ)
    (central : ℝ × ℝ × ℝ) (pos : ℤ) (istart iend jstart jend : ℤ)
    (f : ℤ → ℤ → ℝ) (c : ℝ)
    (hf : ∀ i ∈ Finset.Icc istart iend, ∀ j ∈ Finset.Icc jstart jend, f i j = c) :
    stepAcc in_data width alpha sigma central pos istart iend jstart jend f =
      c * stepWsum in_data width alpha sigma central pos istart iend jstart jend := by
  unfold stepAcc stepWsum
  rw [Finset.mul_sum]
  apply Finset.sum_congr rfl
  intro i hi
  rw [Finset.mul_sum]
  apply Finset.sum_congr rfl
  intro j hj
  rw [hf i hi j hj]

theorem denoiseStep_uniform (in_data : ℤ → ℕ) {width height radius : ℤ}
    (alpha : ℤ) (sigma : ℝ) (cr cg cb : ℕ)
    (hcr : cr < 256) (hcg : cg < 256) (hcb : cb < 256)
    (HU : ∀ row col : ℤ, 0 ≤ row → row < height → 0 ≤ col → col < width →
      in_data (row * width + col) = packRGB cr cg cb)
    (hr : 1 ≤ radius) {s : MSState} (hs : uniformInv width height cr cg cb s) :
    uniformInv width height cr cg cb
      (denoiseStep in_data width height radius alpha sigma s) := by
  obtain ⟨hpos, hsr, hsg, hsb⟩ := hs
  refine ⟨denoiseStep_posInv in_data alpha sigma hr hpos, ?_, ?_, ?_⟩ <;>
  · obtain ⟨p1, p2, p3, p4⟩ := hpos
    have hwr := window_bounds (d := height) hr p1 p2
    have hwc := window_bounds (d := width) hr p3 p4
    unfold denoiseStep
    dsimp only
    rw [jstartOf_eq, jendOf_eq]
    have hW : 0 < stepWsum in_data width alpha sigma (s.r, s.g, s.b)
        (cround s.ir * width + cround s.ic) (istartOf radius s.ir)
        (iendOf radius height s.ir) (istartOf radius s.ic)
        (iendOf radius width s.ic) :=
      stepWsum_pos _ _ _ _ _ _ hwr.2.1 hwc.2.1
    have hcell : ∀ i ∈ Finset.Icc (istartOf radius s.ir) (iendOf radius height s.ir),
        ∀ j ∈ Finset.Icc (istartOf radius s.ic) (iendOf radius width s.ic),
        in_data (i * width + j) = packRGB cr cg cb := by
      intro i hi j hj
      rw [Finset.mem_Icc] at hi hj
      have b1 := hwr.1
      have b2 := hwr.2.2.1
      have b3 := hwc.1
      have b4 := hwc.2.2.1
      exact HU i j (by omega) (by omega) (by omega) (by omega)
    first
    | · rw [stepAcc_const _ _ _ _ _ _ _ _ _ _ _ ((cr : ℕ) : ℝ)
          (fun i hi j hj => by
            rw [hcell i hi j hj, redOf_packRGB cr cg cb hcr hcg hcb]),
          mul_div_assoc, div_self (ne_of_gt hW), mul_one]
    | · rw [stepAcc_const _ _ _ _ _ _ _ _ _ _ _ ((cg : ℕ) : ℝ)
          (fun i hi j hj => by
            rw [hcell i hi j hj, greenOf_packRGB cr cg cb hcg hcb]),
          mul_div_assoc, div_self (ne_of_gt hW), mul_one]
    | · rw [stepAcc_const _ _ _ _ _ _ _ _ _ _ _ ((cb : ℕ) : ℝ)
          (fun i hi j hj => by
            rw [hcell i hi j hj, blueOf_packRGB cr cg cb hcg hcb]),
          mul_div_assoc, div_self (ne_of_gt hW), mul_one]

theorem iterate_uniformInv (in_data : ℤ → ℕ) {width height radius : ℤ}
    (alpha : ℤ) (sigma : ℝ) (cr cg cb : ℕ)
    (hcr : cr < 256) (hcg : cg < 256) (hcb : cb < 256)
    (HU : ∀ row col : ℤ, 0 ≤ row → row < height → 0 ≤ col → col < width →
      in_data (row * width + col) = packRGB cr cg cb)
    (hr : 1 ≤ radius) {s : MSState} (hs : uniformInv width height cr cg cb s)
    (n : ℕ) :
    uniformInv width height cr cg cb
      ((denoiseStep in_data width height radius alpha sigma)^[n] s) := by
  induction n with
  | zero => simpa using hs
  | succ k ihk =>
      rw [Function.iterate_succ_apply']
      exact denoiseStep_uniform in_data alpha sigma cr cg cb hcr hcg hcb HU hr ihk

theorem denoise_pixel_uniform (in_data : ℤ → ℕ) {width height radius : ℤ}
    (alpha : ℤ) (sigma : ℝ) (iter : ℤ) (cr cg cb : ℕ)
    (hcr : cr < 256) (hcg : cg < 256) (hcb : cb < 256)
    (HU : ∀ row col : ℤ, 0 ≤ row → row < height → 0 ≤ col → col < width →
      in_data (row * width + col) = packRGB cr cg cb)
    (hr : 1 ≤ radius) (ic ir : ℤ) (hic1 : 1 ≤ ic) (hic2 : ic ≤ width - 2)
    (hir1 : 1 ≤ ir) (hir2 : ir ≤ height - 2) :
    denoise_pixel_rlsf in_data width height radius alpha sigma iter ic ir =
      some (packRGB cr cg cb) := by
  unfold denoise_pixel_rlsf
  rw [if_neg (by omega)]
  have hinit : uniformInv width height cr cg cb (initState in_data width ic ir) := by
    have hread : in_data (ir * width + ic) = packRGB cr cg cb :=
      HU ir ic (by omega) (by omega) (by omega) (by omega)
    refine ⟨⟨?_, ?_, ?_, ?_⟩, ?_, ?_, ?_⟩ <;> unfold initState <;> dsimp only
    · exact_mod_cast hir1
    · have h2 : (ir : ℝ) ≤ ((height - 2 : ℤ) : ℝ) := by exact_mod_cast hir2
      push_cast at h2
      linarith
    · exact_mod_cast hic1
    · have h2 : (ic : ℝ) ≤ ((width - 2 : ℤ) : ℝ) := by exact_mod_cast hic2
      push_cast at h2
      linarith
    · rw [hread, redOf_packRGB cr cg cb hcr hcg hcb]
    · rw [hread, greenOf_packRGB cr cg cb hcg hcb]
    · rw [hread, blueOf_packRGB cr cg cb hcg hcb]
  obtain ⟨hl1, _, _, _, _⟩ :=
    denoiseLoop_spec in_data width height radius alpha sigma (max 1 iter.toNat)
      (le_max_left _ _) (initState in_data width ic ir)
  obtain ⟨_, hfr, hfg, hfb⟩ :=
    iterate_uniformInv in_data alpha sigma cr cg cb hcr hcg hcb HU hr hinit
      ((denoiseLoop in_data width height radius alpha sigma (max 1 iter.toNat)
        (initState in_data width ic ir)).2)
  rw [← hl1] at hfr hfg hfb
  dsimp only
  rw [hfr, hfg, hfb]
  have htr : ∀ c : ℕ, (truncToInt ((c : ℕ) : ℝ)).toNat = c := by
    intro c
    unfold truncToInt
    rw [if_pos (by positivity), Int.floor_natCast]
    exact Int.toNat_natCast c
  rw [htr cr, htr cg, htr cb]

/-! ### Driver-level helper lemmas -/

theorem IS_POS_of_one_le {z : ℤ} (hz : 1 ≤ z) : IS_POS (z : ℝ) := by
  unfold IS_POS DBL_EPSILON
  have h1 : (1 : ℝ) ≤ (z : ℝ) := by exact_mod_cast hz
  have h2 : (2 : ℝ) ^ (-52 : ℤ) < 1 := by norm_num
  linarith

theorem not_IS_POS_of_nonpos {x : ℝ} (hx : x ≤ 0) : ¬ IS_POS x := by
  unfold IS_POS DBL_EPSILON
  intro h
  have h2 : (0 : ℝ) < (2 : ℝ) ^ (-52 : ℤ) := by positivity
  linarith

/-- When all five validation checks pass, the driver takes the success
branch with the silent `alpha` clamp. -/
theorem filter_success (in_img : Image) (r alpha : ℤ) (sigma : ℝ) (iter : ℤ)
    (h1 : is_rgb_img in_img) (h2 : IS_POS (r : ℝ)) (h3 : IS_POS (alpha : ℝ))
    (h4 : IS_POS sigma) (h5 : IS_POS (iter : ℝ)) :
    filter_ms_rlsf in_img r alpha sigma iter =
      some (rmsOutput in_img r (if alpha > 9 then 9 else alpha) sigma iter) := by
  unfold filter_ms_rlsf
  rw [if_neg (by simpa using h1), if_neg (by simpa using h2),
    if_neg (by simpa using h3), if_neg (by simpa using h4),
    if_neg (by simpa using h5)]

/-- Same statement for the spec-modelled accelerator entry point. -/
theorem CUDA_filter_success (in_img : Image) (r alpha : ℤ) (sigma : ℝ) (iter : ℤ)
    (h1 : is_rgb_img in_img) (h2 : IS_POS (r : ℝ)) (h3 : IS_POS (alpha : ℝ))
    (h4 : IS_POS sigma) (h5 : IS_POS (iter : ℝ)) :
    CUDA_filter_ms_rlsf in_img r alpha sigma iter =
      some (rmsOutput in_img r (if alpha > 9 then 9 else alpha) sigma iter) := by
  unfold CUDA_filter_ms_rlsf
  rw [if_neg (by simpa using h1), if_neg (by simpa using h2),
    if_neg (by simpa using h3), if_neg (by simpa using h4),
    if_neg (by simpa using h5)]

theorem int_in_data_uniform (img : Image) (cr cg cb : ℕ)
    (hdata : ∀ i j, img.data i j = (cr, cg, cb)) :
    ∀ row col : ℤ, 0 ≤ row → row < (img.num_rows : ℤ) →
      0 ≤ col → col < (img.num_cols : ℤ) →
      int_in_data img (row * (img.num_cols : ℤ) + col) = packRGB cr cg cb := by
  intro row col h1 h2 h3 h4
  unfold int_in_data
  dsimp only
  have hub : row * (img.num_cols : ℤ) + col < (img.num_rows : ℤ) * (img.num_cols : ℤ) := by
    have hs : row + 1 ≤ (img.num_rows : ℤ) := by omega
    have h5 : (row + 1) * (img.num_cols : ℤ) ≤ (img.num_rows : ℤ) * (img.num_cols : ℤ) :=
      mul_le_mul_of_nonneg_right hs (by omega)
    nlinarith
  rw [if_pos ⟨by positivity, hub⟩, hdata]

theorem flat_index_div (i j w : ℤ) (hj1 : 0 ≤ j) (hj2 : j < w) :
    (i * w + j) / w = i := by
  rw [add_comm, Int.add_mul_ediv_right _ _ (by omega : w ≠ 0),
    Int.ediv_eq_zero_of_lt hj1 hj2, zero_add]

theorem flat_index_mod (i j w : ℤ) (hj1 : 0 ≤ j) (hj2 : j < w) :
    (i * w + j) % w = j := by
  rw [add_comm, mul_comm, Int.add_mul_emod_self_left]
  exact Int.emod_eq_of_lt hj1 hj2

/-- If the first three checks pass but `sigma` fails `IS_POS`, the driver
returns `NULL`. -/
theorem filter_sigma_fail (in_img : Image) (r alpha : ℤ) (sigma : ℝ) (iter : ℤ)
    (h1 : is_rgb_img in_img) (h2 : IS_POS (r : ℝ)) (h3 : IS_POS (alpha : ℝ))
    (h4 : ¬ IS_POS sigma) :
    filter_ms_rlsf in_img r alpha sigma iter = none := by
  unfold filter_ms_rlsf
  rw [if_neg (by simpa using h1), if_neg (by simpa using h2),
    if_neg (by simpa using h3), if_pos h4]

/-! ### Claim C7 -/

/-- Claim C7: filtering a uniform-color RGB image (sides at least
`2(r+2)+1`) with any valid parameters leaves every interior pixel (row and
column in `[r+1, dimension-r-2]`) exactly unchanged whenever an output
image is produced. -/
theorem C7_uniform_interior_unchanged (img : Image) (cr cg cb : ℕ)
    (r alpha : ℤ) (sigma : ℝ) (iter : ℤ)
    (hrgb : is_rgb_img img)
    (hdata : ∀ i j, img.data i j = (cr, cg, cb))
    (hcr : cr < 256) (hcg : cg < 256) (hcb : cb < 256)
    (hr : 1 ≤ r) (hal : 1 ≤ alpha) (hau : alpha ≤ 9) (hsigma : 0 < sigma)
    (hiter : 1 ≤ iter)
    (hrows : 2 * (r + 2) + 1 ≤ (img.num_rows : ℤ))
    (hcols : 2 * (r + 2) + 1 ≤ (img.num_cols : ℤ))
    (i j : ℕ) (hi1 : r + 1 ≤ (i : ℤ)) (hi2 : (i : ℤ) ≤ (img.num_rows : ℤ) - r - 2)
    (hj1 : r + 1 ≤ (j : ℤ)) (hj2 : (j : ℤ) ≤ (img.num_cols : ℤ) - r - 2)
    (out : Image) (hout : filter_ms_rlsf img r alpha sigma iter = some out) :
    out.data i j = img.data i j := by
  by_cases hS : IS_POS sigma
  · rw [filter_success img r alpha sigma iter hrgb (IS_POS_of_one_le hr)
      (IS_POS_of_one_le hal) hS (IS_POS_of_one_le hiter)] at hout
    have hclamp : (if alpha > 9 then 9 else alpha) = alpha := if_neg (by omega)
    rw [hclamp] at hout
    have hout2 : out = rmsOutput img r alpha sigma iter := (Option.some.inj hout).symm
    subst hout2
    unfold rmsOutput
    dsimp only
    have hjw : 0 ≤ (j : ℤ) ∧ (j : ℤ) < (img.num_cols : ℤ) := by omega
    have hden : int_out_data img r alpha sigma iter
        ((i : ℤ) * (img.num_cols : ℤ) + (j : ℤ)) = packRGB cr cg cb := by
      unfold int_out_data
      dsimp only
      rw [flat_index_mod _ _ _ hjw.1 hjw.2, flat_index_div _ _ _ hjw.1 hjw.2]
      rw [denoise_pixel_uniform (int_in_data img) alpha (2 * sigma * sigma) iter
        cr cg cb hcr hcg hcb (int_in_data_uniform img cr cg cb hdata) hr
        (j : ℤ) (i : ℤ) (by omega) (by omega) (by omega) (by omega)]
    rw [hden, hdata, shr16_and_packRGB cr cg cb hcr hcg hcb,
      shr8_and_packRGB cr cg cb hcg hcb, and_ff_packRGB cr cg cb hcg hcb]
  · rw [filter_sigma_fail img r alpha sigma iter hrgb (IS_POS_of_one_le hr)
      (IS_POS_of_one_le hal) hS] at hout
    exact absurd hout (by simp)

/-- Witness for C7: the spec's concrete scenario (9×9 uniform 128 image,
`r = 1`, `alpha = 3`, `sigma = 50`, `iter = 5`) at interior pixel (2, 2). -/
theorem C7_witness :
    ∃ out : Image, filter_ms_rlsf uimg9 1 3 50 5 = some out ∧
      out.data 2 2 = (128, 128, 128) := by
  have hsucc : filter_ms_rlsf uimg9 1 3 50 5 =
      some (rmsOutput uimg9 1 (if (3 : ℤ) > 9 then 9 else 3) 50 5) :=
    filter_success uimg9 1 3 50 5 rfl (IS_POS_of_one_le (by decide))
      (IS_POS_of_one_le (by decide))
      (by unfold IS_POS DBL_EPSILON; norm_num)
      (IS_POS_of_one_le (by decide))
  refine ⟨rmsOutput uimg9 1 (if (3 : ℤ) > 9 then 9 else 3) 50 5, hsucc, ?_⟩
  have h22 := C7_uniform_interior_unchanged uimg9 128 128 128 1 3 50 5 rfl
    (fun _ _ => rfl) (by decide) (by decide) (by decide) (by decide) (by decide)
    (by decide) (by norm_num) (by decide) (by decide) (by decide)
    2 2 (by decide) (by decide) (by decide) (by decide)
    (rmsOutput uimg9 1 (if (3 : ℤ) > 9 then 9 else 3) 50 5) hsucc
  rw [h22]
  rfl

/-! ### Claim C2 (corrected): the skipped border is one cell wide, not r+1 -/

/-- Counterexample to C2 as stated: on the 9×9 uniform image with
`r = 1`, pixel `(row, col) = (1, 1)` is within `r + 1 = 2` cells of the
image edge, yet the filter writes its output cell (flat index
`1 * 9 + 1 = 10`): the driver's output buffer holds the denoised packed
color there, not the pre-filter default `0`. -/
theorem C2_counterexample :
    int_out_data uimg9 1 3 50 5 10 = packRGB 128 128 128 ∧
      packRGB 128 128 128 ≠ 0 := by
  constructor
  · unfold int_out_data
    dsimp only
    have h9 : (uimg9.num_cols : ℤ) = 9 := rfl
    rw [h9]
    have hmod : (10 : ℤ) % 9 = 1 := by decide
    have hdiv : (10 : ℤ) / 9 = 1 := by decide
    rw [hmod, hdiv]
    rw [denoise_pixel_uniform (int_in_data uimg9) 3 (2 * 50 * 50) 5 128 128 128
      (by decide) (by decide) (by decide) ?_ (by decide) 1 1 (by decide)
      (by decide) (by decide) (by decide)]
    intro row col h1 h2 h3 h4
    exact int_in_data_uniform uimg9 128 128 128 (fun _ _ => rfl) row col h1 h2 h3 h4
  · decide

/-- Claim C2 amended: the filter skips exactly the pixels in the one-cell
border — `col < 1`, `col ≥ width - 1`, `row < 1` or `row ≥ height - 1` —
independently of `r`; those output cells are never written (the `none`
result), while every other pixel is processed and written. -/
theorem C2_amended_border_is_one_cell (in_data : ℤ → ℕ)
    (width height radius alpha : ℤ) (sigma : ℝ) (iter : ℤ) (ic ir : ℤ) :
    denoise_pixel_rlsf in_data width height radius alpha sigma iter ic ir = none ↔
      (ic ≥ width - 1 ∨ ir ≥ height - 1 ∨ ic < 1 ∨ ir < 1) := by
  unfold denoise_pixel_rlsf
  by_cases hc : ic ≥ width - 1 ∨ ir ≥ height - 1 ∨ ic < 1 ∨ ir < 1
  · rw [if_pos hc]
    simp only [true_iff]
    omega
  · rw [if_neg hc]
    simp only [reduceCtorEq, false_iff]
    omega

/-! ### Claim C3 (corrected): validation threshold is DBL_EPSILON, not 0 -/

/-- Counterexample to C3 as stated: with a genuine RGB image and all four
numeric parameters strictly positive (`sigma = DBL_EPSILON = 2⁻⁵² > 0`),
the driver still returns `NULL`, because the `IS_POS` macro requires
strict excess over `DBL_EPSILON`. -/
theorem C3_counterexample :
    (0 : ℝ) < DBL_EPSILON ∧
      filter_ms_rlsf uimg9 1 1 DBL_EPSILON 1 = none := by
  constructor
  · unfold DBL_EPSILON
    positivity
  · exact filter_sigma_fail uimg9 1 1 DBL_EPSILON 1 rfl
      (IS_POS_of_one_le (by decide)) (IS_POS_of_one_le (by decide))
      (by unfold IS_POS; exact lt_irrefl _)

theorem IS_POS_int_iff (z : ℤ) : IS_POS (z : ℝ) ↔ 1 ≤ z := by
  constructor
  · intro h
    by_contra hz
    exact not_IS_POS_of_nonpos (by exact_mod_cast by omega : (z : ℝ) ≤ 0) h
  · exact IS_POS_of_one_le

theorem filter_none_iff (img : Image) (r alpha : ℤ) (sigma : ℝ) (iter : ℤ) :
    filter_ms_rlsf img r alpha sigma iter = none ↔
      ¬ (is_rgb_img img ∧ IS_POS (r : ℝ) ∧ IS_POS (alpha : ℝ) ∧ IS_POS sigma ∧
        IS_POS (iter : ℝ)) := by
  unfold filter_ms_rlsf
  by_cases h1 : is_rgb_img img <;> by_cases h2 : IS_POS (r : ℝ) <;>
    by_cases h3 : IS_POS (alpha : ℝ) <;> by_cases h4 : IS_POS sigma <;>
    by_cases h5 : IS_POS (iter : ℝ) <;> simp [h1, h2, h3, h4, h5]

/-- Claim C3 amended: the driver validates before any filtering work and
returns `NULL` exactly when the image is not RGB or one of the parameters
fails the `IS_POS` macro — for the integer parameters `r`, `alpha`, `iter`
this coincides with strict positivity, but the float `sigma` must exceed
`DBL_EPSILON` (a strictly positive `sigma ≤ DBL_EPSILON` is rejected);
otherwise `alpha` is silently clamped to 9 and the filtering pass runs. -/
theorem C3_amended_validation (img : Image) (r alpha : ℤ) (sigma : ℝ) (iter : ℤ) :
    (filter_ms_rlsf img r alpha sigma iter = none ↔
      ¬ (is_rgb_img img ∧ 1 ≤ r ∧ 1 ≤ alpha ∧ DBL_EPSILON < sigma ∧ 1 ≤ iter)) ∧
    (is_rgb_img img → 1 ≤ r → 1 ≤ alpha → DBL_EPSILON < sigma → 1 ≤ iter →
      filter_ms_rlsf img r alpha sigma iter =
        some (rmsOutput img r (if alpha > 9 then 9 else alpha) sigma iter)) := by
  constructor
  · rw [filter_none_iff img r alpha sigma iter, IS_POS_int_iff, IS_POS_int_iff,
      IS_POS_int_iff]
    exact Iff.rfl
  · intro h1 h2 h3 h4 h5
    exact filter_success img r alpha sigma iter h1 (IS_POS_of_one_le h2)
      (IS_POS_of_one_le h3) h4 (IS_POS_of_one_le h5)

/-- Witness for the amended C3 at concrete inputs: `alpha = 10` is clamped
to 9 on a passing parameter set, and a non-RGB image is rejected. -/
theorem C3_witness :
    filter_ms_rlsf uimg9 1 10 50 5 = some (rmsOutput uimg9 1 9 50 5) ∧
    filter_ms_rlsf (Image.mk PixelType.PIX_GRAY 9 9 (fun _ _ => (0, 0, 0)))
      1 10 50 5 = none := by
  constructor
  · have h := (C3_amended_validation uimg9 1 10 50 5).2 rfl (by decide) (by decide)
      (by unfold DBL_EPSILON; norm_num) (by decide)
    rwa [show (if (10 : ℤ) > 9 then 9 else 10) = (9 : ℤ) by decide] at h
  · rw [(C3_amended_validation _ 1 10 50 5).1]
    intro h
    exact absurd h.1 (by unfold is_rgb_img; decide)

/-! ### Claim C8 -/

/-- Claim C8: on success `filter_ms_rlsf` returns a newly built image of
pixel type `PIX_RGB` with the input's dimensions.  The embedding is a pure
function of the input image — the pass only reads `in_data` (the input is
never among the written buffers), so the input is unchanged by
construction. -/
theorem C8_output_type_and_dims (img : Image) (r alpha : ℤ) (sigma : ℝ)
    (iter : ℤ) (out : Image)
    (hout : filter_ms_rlsf img r alpha sigma iter = some out) :
    out.pix_type = PixelType.PIX_RGB ∧ out.num_rows = img.num_rows ∧
      out.num_cols = img.num_cols := by
  have hnone : ¬ (filter_ms_rlsf img r alpha sigma iter = none) := by
    rw [hout]
    simp
  rw [filter_none_iff] at hnone
  obtain ⟨h1, h2, h3, h4, h5⟩ := not_not.mp hnone
  rw [filter_success img r alpha sigma iter h1 h2 h3 h4 h5] at hout
  have h : rmsOutput img r (if alpha > 9 then 9 else alpha) sigma iter = out :=
    Option.some.inj hout
  rw [← h]
  exact ⟨rfl, rfl, rfl⟩

/-- Witness for C8 at a concrete input. -/
theorem C8_witness :
    (rmsOutput uimg9 1 9 50 5).pix_type = PixelType.PIX_RGB ∧
    (rmsOutput uimg9 1 9 50 5).num_rows = uimg9.num_rows ∧
    (rmsOutput uimg9 1 9 50 5).num_cols = uimg9.num_cols := by
  have hsucc : filter_ms_rlsf uimg9 1 10 50 5 = some (rmsOutput uimg9 1 9 50 5) := by
    have h := filter_success uimg9 1 10 50 5 rfl (IS_POS_of_one_le (by decide))
      (IS_POS_of_one_le (by decide)) (by unfold IS_POS DBL_EPSILON; norm_num)
      (IS_POS_of_one_le (by decide))
    rwa [show (if (10 : ℤ) > 9 then 9 else 10) = (9 : ℤ) by decide] at h
  exact C8_output_type_and_dims uimg9 1 10 50 5 (rmsOutput uimg9 1 9 50 5) hsucc

/-! ### Claim C10 -/

/-- Claim C10: the host-parallel backend and the (spec-modelled)
accelerator backend, run on the same input with identical parameters,
produce outputs whose per-channel values differ by at most one intensity
level at every pixel — in the exact-real model the two pixel-parallel maps
coincide, so the difference is zero. -/
theorem C10_backend_equivalence (img : Image) (r alpha : ℤ) (sigma : ℝ)
    (iter : ℤ) (out1 out2 : Image)
    (h1 : filter_ms_rlsf img r alpha sigma iter = some out1)
    (h2 : CUDA_filter_ms_rlsf img r alpha sigma iter = some out2)
    (i j : ℕ) :
    |((out1.data i j).1 : ℤ) - ((out2.data i j).1 : ℤ)| ≤ 1 ∧
    |((out1.data i j).2.1 : ℤ) - ((out2.data i j).2.1 : ℤ)| ≤ 1 ∧
    |((out1.data i j).2.2 : ℤ) - ((out2.data i j).2.2 : ℤ)| ≤ 1 := by
  have heq : CUDA_filter_ms_rlsf img r alpha sigma iter =
      filter_ms_rlsf img r alpha sigma iter := rfl
  rw [heq, h1] at h2
  have h : out1 = out2 := Option.some.inj h2
  subst h
  refine ⟨?_, ?_, ?_⟩ <;> simp

/-- Witness for C10 at a concrete input. -/
theorem C10_witness :
    |(((rmsOutput uimg9 1 9 50 5).data 0 0).1 : ℤ) -
      (((rmsOutput uimg9 1 9 50 5).data 0 0).1 : ℤ)| ≤ 1 := by
  have hs1 : filter_ms_rlsf uimg9 1 10 50 5 = some (rmsOutput uimg9 1 9 50 5) := by
    have h := filter_success uimg9 1 10 50 5 rfl (IS_POS_of_one_le (by decide))
      (IS_POS_of_one_le (by decide)) (by unfold IS_POS DBL_EPSILON; norm_num)
      (IS_POS_of_one_le (by decide))
    rwa [show (if (10 : ℤ) > 9 then 9 else 10) = (9 : ℤ) by decide] at h
  have hs2 : CUDA_filter_ms_rlsf uimg9 1 10 50 5 = some (rmsOutput uimg9 1 9 50 5) := by
    have h := CUDA_filter_success uimg9 1 10 50 5 rfl (IS_POS_of_one_le (by decide))
      (IS_POS_of_one_le (by decide)) (by unfold IS_POS DBL_EPSILON; norm_num)
      (IS_POS_of_one_le (by decide))
    rwa [show (if (10 : ℤ) > 9 then 9 else 10) = (9 : ℤ) by decide] at h
  exact (C10_backend_equivalence uimg9 1 10 50 5 (rmsOutput uimg9 1 9 50 5)
    (rmsOutput uimg9 1 9 50 5) hs1 hs2 0 0).1

/-! ### Claim C4 (corrected): the 3×3 weighting patch is centered at the
current position, not at the candidate cell -/

theorem sortedTrimAvg_nine (d : Fin 9 → ℝ) :
    sortedTrimAvg d 9 = (∑ a : Fin 9, d a) / ((9 : ℤ) : ℝ) := by
  unfold sortedTrimAvg
  have hmin : ((min (9 : ℤ) 9).toNat) = 9 := by decide
  rw [hmin]
  have hlen : ((Multiset.map d Finset.univ.val).sort (· ≤ ·)).length ≤ 9 := by
    rw [Multiset.length_sort]
    simp
  rw [List.take_of_length_le hlen]
  congr 1
  have h1 : (((Multiset.map d Finset.univ.val).sort (· ≤ ·) : List ℝ) :
      Multiset ℝ).sum = (Multiset.map d Finset.univ.val).sum := by
    rw [Multiset.sort_eq]
  rw [Multiset.sum_coe] at h1
  rw [h1]
  rfl

/-- Counterexample to C4 as stated: with the window center at pixel
`(4, 4)` (flat `pos = 40`, estimate/reference black) and candidate cell
`q = (1, 1)` (flat `10`, inside the radius-2 search window), the weight the
code computes for `q` — nine distances over the patch around `pos = 40` to
`q`'s color — differs from the claim's reading — nine distances over the
patch around `q` itself to the reference color (`alpha = 9`,
`2·sigma² = 5000`). -/
theorem C4_counterexample :
    (1 : ℤ) ∈ Finset.Icc (istartOf 2 (((4 : ℤ) : ℝ))) (iendOf 2 9 (((4 : ℤ) : ℝ))) ∧
    cellWeight in_dataC4 9 9 5000 ((0 : ℝ), (0 : ℝ), (0 : ℝ)) 40 1 1 ≠
      claimWeightC4 in_dataC4 9 ((0 : ℝ), (0 : ℝ), (0 : ℝ)) 10 9 5000 := by
  have hcr4 : cround (((4 : ℤ) : ℝ)) = 4 := by
    rw [cround_of_nonneg (by norm_num), Int.floor_int_add,
      show ⌊(1 : ℝ) / 2⌋ = 0 by norm_num, add_zero]
  constructor
  · rw [Finset.mem_Icc]
    unfold istartOf iendOf
    rw [hcr4]
    constructor <;> norm_num
  · have hq : redOf (in_dataC4 (1 * 9 + 1)) = 255 := by decide
    have hq2 : greenOf (in_dataC4 (1 * 9 + 1)) = 0 := by decide
    have hq3 : blueOf (in_dataC4 (1 * 9 + 1)) = 0 := by decide
    have e1 : redOf (packRGB 255 0 0) = 255 := by decide
    have e2 : greenOf (packRGB 255 0 0) = 0 := by decide
    have e3 : blueOf (packRGB 255 0 0) = 0 := by decide
    have e4 : redOf (packRGB 0 0 0) = 0 := by decide
    have e5 : greenOf (packRGB 0 0 0) = 0 := by decide
    have e6 : blueOf (packRGB 0 0 0) = 0 := by decide
    have hcode : cellWeight in_dataC4 9 9 5000 ((0 : ℝ), (0 : ℝ), (0 : ℝ)) 40 1 1 =
        Real.exp (-((65025 : ℝ) / 5000)) := by
      unfold cellWeight
      rw [compute_weight_eq_kernel, hq, hq2, hq3]
      have hd : ∀ a : Fin 9,
          nbhdDists in_dataC4 9 ((255 : ℕ) : ℝ) ((0 : ℕ) : ℝ) ((0 : ℕ) : ℝ) 40
            ((0 : ℝ), (0 : ℝ), (0 : ℝ)) a = 65025 := by
        intro a
        fin_cases a <;>
          · unfold nbhdDists
            dsimp only
            norm_num [in_dataC4, e1, e2, e3, e4, e5, e6]
      rw [sortedTrimAvg_nine, Finset.sum_congr rfl (fun a _ => hd a),
        Finset.sum_const]
      norm_num
    have hspec : claimWeightC4 in_dataC4 9 ((0 : ℝ), (0 : ℝ), (0 : ℝ)) 10 9 5000 =
        Real.exp (-((57800 : ℝ) / 5000)) := by
      unfold claimWeightC4
      dsimp only
      have hd : ∀ a : Fin 9,
          nbhdDists in_dataC4 9 (0 : ℝ) (0 : ℝ) (0 : ℝ) 10
            ((0 : ℝ), (0 : ℝ), (0 : ℝ)) a =
            if (a : ℕ) = 4 then 0 else 65025 := by
        intro a
        fin_cases a <;>
          · unfold nbhdDists
            dsimp only
            norm_num [in_dataC4, e1, e2, e3, e4, e5, e6]
      rw [sortedTrimAvg_nine, Finset.sum_congr rfl (fun a _ => hd a)]
      rw [Fin.sum_univ_succ, Fin.sum_univ_succ, Fin.sum_univ_succ,
        Fin.sum_univ_succ, Fin.sum_univ_succ, Fin.sum_univ_succ,
        Fin.sum_univ_succ, Fin.sum_univ_succ]
      norm_num
    rw [hcode, hspec]
    intro h
    have h2 := Real.exp_injective h
    norm_num at h2

/-- Claim C4 amended: in every mode-seeking iteration, the weight of a
window cell `q` is computed from the nine squared distances taken over the
3×3 patch centered at the *current rounded position* `pos` (the same patch
for every `q` of the window; the patch's center slot holds the reference
color, i.e. the current estimate), each distance measured from the
*candidate cell q's own color* — not, as stated, over the patch around `q`
with distances to the reference color. -/
theorem C4_amended_patch_at_position (in_data : ℤ → ℕ) (width alpha : ℤ)
    (sigma : ℝ) (s : MSState) (i j : ℤ) :
    cellWeight in_data width alpha sigma (s.r, s.g, s.b)
        (cround s.ir * width + cround s.ic) i j =
      Real.exp (-(sortedTrimAvg
        (nbhdDists in_data width
          ((redOf (in_data (i * width + j)) : ℕ) : ℝ)
          ((greenOf (in_data (i * width + j)) : ℕ) : ℝ)
          ((blueOf (in_data (i * width + j)) : ℕ) : ℝ)
          (cround s.ir * width + cround s.ic) (s.r, s.g, s.b)) alpha / sigma)) := by
  unfold cellWeight
  exact compute_weight_eq_kernel in_data width
    (cround s.ir * width + cround s.ic) _ _ _ (s.r, s.g, s.b) alpha sigma

end RMS
